import Mathlib

/-!
Verification development for the spaCy tokenizer/parser core utilities
(`spacy/util.py`) and the spec-modelled tokenizer and arc-eager parser.
-/

namespace ReM

/-- The predicate character classes denoted by the escapes `\d`, `\w` and
`\s` (`\D`, `\W`, `\S` are their negations).  Matching is modelled on the
ASCII range of Python's definitions (digits `0-9`; word characters:
alphanumerics and underscore; whitespace: space, tab, newline, carriage
return, vertical tab, form feed); the affix patterns of this repository
use them only on that range. -/
inductive PCls where
  | digit
  | word
  | space
deriving Repr, DecidableEq

/-- One item of a character class `[...]`: a literal or range of code
points, or a `\d`-style predicate class (negated for `\D` `\W` `\S`). -/
inductive ClsItem where
  | rng (lo hi : Char)
  | pcls (neg : Bool) (p : PCls)
deriving Repr, DecidableEq

/-- Abstract syntax for the fragment of Python `re` patterns modelled
here: character literals, escaped characters, `.`, character classes with
ranges and `\d`-style escapes, capturing `(...)` and non-capturing
`(?:...)` groups, ordered alternation `|`, greedy `*` `+` `?`, the
anchors `^` and `$`, and the four lookarounds `(?=...)`, `(?!...)`,
`(?<=...)`, `(?<!...)` — the inventory of the repository's affix pattern
lists.  `{m,n}` counters, named groups, inline flags such as `(?i)` and
backreferences are outside the fragment. -/
inductive RE where
  | eps
  | ch (c : Char)
  | dot
  | cls (neg : Bool) (items : List ClsItem)
  | seq (a b : RE)
  | alt (a b : RE)
  | star (a : RE)
  | bol
  | eol
  | look (behind : Bool) (neg : Bool) (a : RE)
deriving Repr, DecidableEq

/-- The class item denoted by an escaped character: `\d` `\D` `\w` `\W`
`\s` `\S` are predicate classes; any other escaped character denotes
itself (exact for `re.escape` output and for the punctuation escapes in
the affix lists), handled by the callers via `none`. -/
def classEsc (d : Char) : Option ClsItem :=
  if d = 'd' then some (.pcls false .digit)
  else if d = 'D' then some (.pcls true .digit)
  else if d = 'w' then some (.pcls false .word)
  else if d = 'W' then some (.pcls true .word)
  else if d = 's' then some (.pcls false .space)
  else if d = 'S' then some (.pcls true .space)
  else none

/-- Items of a character class `[...]`, as in Python: a leading `]` is a
literal, `x-y` is a range (invalid when `y < x`), a trailing `-` is a
literal, backslash escapes the next character (a predicate item for
`\d`-style escapes, otherwise a literal); an escape cannot be a range
endpoint (`[\d-x]` is Python's "bad character range", and ranges with
escaped endpoints are outside the fragment).  Returns the parsed items
and the input after the closing `]`; `none` on an unterminated or
invalid class, as `re.compile` errors there. -/
def parseClsItems : Nat → Bool → List Char → Option (List ClsItem × List Char)
  | 0, _, _ => none
  | _, _, [] => none
  | fuel+1, first, c :: rest =>
    if c = ']' ∧ ¬ first then
      some ([], rest)
    else if c = '\\' then
      match rest with
      | [] => none
      | d :: rest2 =>
        match rest2 with
        | '-' :: e :: _ =>
          if e = ']' then do
            let (items, rem) ← parseClsItems fuel false rest2
            some ((classEsc d).getD (.rng d d) :: items, rem)
          else none
        | _ => do
          let (items, rem) ← parseClsItems fuel false rest2
          some ((classEsc d).getD (.rng d d) :: items, rem)
    else
      match rest with
      | '-' :: d :: rest2 =>
        if d = ']' then do
          -- a `-` just before `]` is a literal hyphen
          let (items, rem) ← parseClsItems fuel false ('-' :: d :: rest2)
          some (ClsItem.rng c c :: items, rem)
        else if d = '\\' then none  -- ranges ending in an escape: not modelled
        else if d < c then none     -- bad character range, as in Python
        else do
          let (items, rem) ← parseClsItems fuel false rest2
          some (ClsItem.rng c d :: items, rem)
      | _ => do
        let (items, rem) ← parseClsItems fuel false rest
        some (ClsItem.rng c c :: items, rem)

/-- Fold a list of pieces into their concatenation, keeping the last piece
as the tail (so `a$` becomes `seq (ch a) eol`, not `seq .. (seq eol eps)`). -/
def seqList : List RE → RE
  | [] => .eps
  | [r] => r
  | r :: rs => .seq r (seqList rs)

/-- Whether an atom may carry a quantifier; Python rejects `^*` and `$*`
with "nothing to repeat" but allows quantified groups and lookarounds. -/
def repeatable : RE → Bool
  | .bol => false
  | .eol => false
  | _ => true

/-- The width of every string the pattern can match, when that width is
fixed (`none` otherwise): Python compiles a lookbehind only when its body
has a fixed width ("look-behind requires fixed-width pattern").
Assertions have width zero, an alternation needs branches of equal width,
and starred subpatterns are never fixed. -/
def fixedWidth : RE → Option Nat
  | .eps => some 0
  | .ch _ => some 1
  | .dot => some 1
  | .cls _ _ => some 1
  | .seq a b => do
    let x ← fixedWidth a
    let y ← fixedWidth b
    some (x + y)
  | .alt a b => do
    let x ← fixedWidth a
    let y ← fixedWidth b
    if x = y then some x else none
  | .star _ => none
  | .bol => some 0
  | .eol => some 0
  | .look _ _ _ => some 0

mutual

/-- Parse an alternation (the whole pattern or a group body): branches
separated by `|`, tried left to right. -/
def parseAlt : Nat → List Char → Option (RE × List Char)
  | 0, _ => none
  | fuel+1, input => do
    let (r, rest) ← parsePieces fuel input []
    match rest with
    | '|' :: rest2 => do
      let (r2, rest3) ← parseAlt fuel rest2
      some (.alt r r2, rest3)
    | _ => some (r, rest)

/-- Parse a branch: a (possibly empty) run of quantified atoms, stopping at
`|`, `)` or the end of input. -/
def parsePieces : Nat → List Char → List RE → Option (RE × List Char)
  | 0, _, _ => none
  | fuel+1, input, acc =>
    match input with
    | [] => some (seqList acc, [])
    | ')' :: rest => some (seqList acc, ')' :: rest)
    | '|' :: rest => some (seqList acc, '|' :: rest)
    | _ => do
      let (a, rest) ← parseAtom fuel input
      match rest with
      | '*' :: rest2 =>
        if repeatable a then parsePieces fuel rest2 (acc ++ [.star a]) else none
      | '+' :: rest2 =>
        if repeatable a then parsePieces fuel rest2 (acc ++ [.seq a (.star a)]) else none
      | '?' :: rest2 =>
        if repeatable a then parsePieces fuel rest2 (acc ++ [.alt a .eps]) else none
      | _ => parsePieces fuel rest (acc ++ [a])

/-- Parse one atom.  A leading `*`, `+` or `?` is Python's "nothing to
repeat" error; an unclosed group, class or lookaround is an error; a
lookbehind whose body has no fixed width is an error, as in Python; `(?`
followed by anything other than `:`, `=`, `!`, `<=` or `<!` (named
groups, inline flags, ...) is outside the modelled fragment.  `\d`-style
escapes denote their predicate class; any other escaped character
denotes itself. -/
def parseAtom : Nat → List Char → Option (RE × List Char)
  | 0, _ => none
  | fuel+1, input =>
    match input with
    | [] => none
    | '(' :: '?' :: ':' :: rest => do
      let (r, rest2) ← parseAlt fuel rest
      match rest2 with
      | ')' :: rest3 => some (r, rest3)
      | _ => none
    | '(' :: '?' :: '=' :: rest => do
      let (r, rest2) ← parseAlt fuel rest
      match rest2 with
      | ')' :: rest3 => some (.look false false r, rest3)
      | _ => none
    | '(' :: '?' :: '!' :: rest => do
      let (r, rest2) ← parseAlt fuel rest
      match rest2 with
      | ')' :: rest3 => some (.look false true r, rest3)
      | _ => none
    | '(' :: '?' :: '<' :: '=' :: rest => do
      let (r, rest2) ← parseAlt fuel rest
      match rest2 with
      | ')' :: rest3 =>
        if (fixedWidth r).isSome then some (.look true false r, rest3) else none
      | _ => none
    | '(' :: '?' :: '<' :: '!' :: rest => do
      let (r, rest2) ← parseAlt fuel rest
      match rest2 with
      | ')' :: rest3 =>
        if (fixedWidth r).isSome then some (.look true true r, rest3) else none
      | _ => none
    | '(' :: '?' :: _ => none
    | '(' :: rest => do
      let (r, rest2) ← parseAlt fuel rest
      match rest2 with
      | ')' :: rest3 => some (r, rest3)
      | _ => none
    | '[' :: '^' :: rest => do
      let (items, rem) ← parseClsItems fuel true rest
      some (.cls true items, rem)
    | '[' :: rest => do
      let (items, rem) ← parseClsItems fuel true rest
      some (.cls false items, rem)
    | '\\' :: [] => none
    | '\\' :: d :: rest =>
      match classEsc d with
      | some it => some (.cls false [it], rest)
      | none => some (.ch d, rest)
    | '.' :: rest => some (.dot, rest)
    | '^' :: rest => some (.bol, rest)
    | '$' :: rest => some (.eol, rest)
    | '*' :: _ => none
    | '+' :: _ => none
    | '?' :: _ => none
    | ')' :: _ => none
    | '|' :: _ => none
    | c :: rest => some (.ch c, rest)

end

/-- Parse a whole pattern string; `none` models `re.compile` raising
`re.error`.  Leftover input (for example a stray `)`) is an error too. -/
def parseRE (pat : String) : Option RE :=
  match parseAlt (8 * pat.data.length + 8) pat.data with
  | some (r, []) => some r
  | _ => none

/-- Matching of one predicate class against a character. -/
def pclsMatch : PCls → Char → Bool
  | .digit, c => '0' ≤ c && c ≤ '9'
  | .word, c => c.isAlphanum || c = '_'
  | .space, c =>
    c = ' ' || c = '\t' || c = '\n' || c = '\r' ||
      c = Char.ofNat 11 || c = Char.ofNat 12

/-- Matching of one class item against a character. -/
def itemMatch (c : Char) : ClsItem → Bool
  | .rng lo hi => lo ≤ c && c ≤ hi
  | .pcls neg p => if neg then !pclsMatch p c else pclsMatch p c

/-- Membership of a character in a class. -/
def clsMatch (neg : Bool) (items : List ClsItem) (c : Char) : Bool :=
  let inIt := items.any (itemMatch c)
  if neg then !inIt else inIt

/-- Greedy iteration for `star`: given the end positions `g i` of one copy
of the body from position `i`, the end positions of zero or more copies,
preferring more copies (greedy).  Each further copy must consume input
(`i < e`), which also mirrors Python's refusal to loop on empty
repetitions; the fuel only bounds the recursion depth and never runs out
when it starts at `s.length + 1`. -/
def starEnds (g : Nat → List Nat) : Nat → Nat → List Nat
  | 0, i => [i]
  | fuel+1, i =>
    ((g i).flatMap (fun e => if i < e then starEnds g fuel e else [])) ++ [i]

/-- End positions (in backtracking preference order, most preferred first)
of matches of `r` starting at position `i` of `s`.  Mirrors Python `re`
semantics on the modelled fragment: alternation prefers the left branch,
`*` is greedy, `^` matches only at position 0 (no MULTILINE), `$` matches
at the end of the string or just before a newline that ends the string;
lookarounds are zero-width assertions — a lookahead tests for a match of
its body at the current position, a lookbehind for a match of its body
ending exactly at the current position. -/
def ends : RE → List Char → Nat → List Nat
  | .eps, _, i => [i]
  | .ch c, s, i =>
    match s[i]? with
    | some d => if d = c then [i+1] else []
    | none => []
  | .dot, s, i =>
    match s[i]? with
    | some d => if d = '\n' then [] else [i+1]
    | none => []
  | .cls neg items, s, i =>
    match s[i]? with
    | some d => if clsMatch neg items d then [i+1] else []
    | none => []
  | .seq a b, s, i => (ends a s i).flatMap (fun e => ends b s e)
  | .alt a b, s, i => ends a s i ++ ends b s i
  | .star a, s, i => starEnds (fun j => ends a s j) (s.length + 1) i
  | .bol, _, i => if i = 0 then [i] else []
  | .eol, s, i =>
    if i = s.length ∨ (i + 1 = s.length ∧ s[i]? = some '\n') then [i] else []
  | .look false false a, s, i => if (ends a s i).isEmpty then [] else [i]
  | .look false true a, s, i => if (ends a s i).isEmpty then [i] else []
  | .look true false a, s, i =>
    if (List.range (i+1)).any (fun j => (ends a s j).contains i) then [i] else []
  | .look true true a, s, i =>
    if (List.range (i+1)).any (fun j => (ends a s j).contains i) then [] else [i]

/-- Embedding of `compiled.search(text)`: scan candidate start positions
left to right; at the first position with a match, return the span of the
backtracking-preferred match there. -/
def reSearch (r : RE) (text : String) : Option (Nat × Nat) :=
  (List.range (text.data.length + 1)).findSome? (fun i =>
    match (ends r text.data i).head? with
    | some e => some (i, e)
    | none => none)

/-- Whether the literal character list `cs` occurs in `s` starting at
position `i` (the matching relation of an escaped literal alternative). -/
def litMatch : List Char → List Char → Nat → Bool
  | [], _, _ => true
  | c :: cs, s, i =>
    match s[i]? with
    | some d => d == c && litMatch cs s (i+1)
    | none => false

/-- Whether every match of the pattern necessarily ends with the `$` assertion:
the last piece of the concatenation is `eol`. -/
def endsWithEol : RE → Bool
  | .seq _ b => endsWithEol b
  | .eol => true
  | _ => false

/-- Whether every top-level alternative of the pattern ends with `$`, the
shape `compile_suffix_regex` produces when no entry smuggles in a
top-level `|` of its own. -/
def suffixShaped : RE → Bool
  | .alt a b => suffixShaped a && suffixShaped b
  | r => endsWithEol r

end ReM

namespace SpacyUtil

/-- Truthiness of `piece.strip()` in the list comprehensions of the affix
compilers: a piece is kept when it has a non-whitespace character. -/
def nonblank (piece : String) : Bool := piece.data.any (fun c => !c.isWhitespace)

/-- The literal regex denoted by `re.escape(piece)`: every character of the
piece matched verbatim, in order. -/
def litRE : List Char → ReM.RE
  | [] => .eps
  | [c] => .ch c
  | c :: cs => .seq (.ch c) (litRE cs)

/-- Ordered alternation of a list of already-parsed alternatives, as
produced by `"|".join(...)`; the empty join is the empty pattern. -/
def altList : List ReM.RE → ReM.RE
  | [] => .eps
  | [r] => r
  | r :: rs => .alt r (altList rs)

/-- Embedding of `compile_prefix_regex(entries)` from `spacy/util.py`.
When `"("` is among the entries (the deprecated-data branch taken by the
claim's example), the source joins `"^" + re.escape(piece)`; since
`re.escape` makes every character literal, the compiled object is modelled
directly as the alternation of start-anchored literals.  Otherwise the
source joins the raw fragments `"^" + piece` and compiles the result;
`Except.error` models `re.compile` raising on a malformed pattern. -/
def compile_prefix_regex (entries : List String) : Except Unit ReM.RE :=
  if entries.contains "(" then
    .ok (altList ((entries.filter nonblank).map (fun p => .seq .bol (litRE p.data))))
  else
    match ReM.parseRE (String.intercalate "|"
        ((entries.filter nonblank).map (fun p => "^" ++ p))) with
    | some r => .ok r
    | none => .error ()

/-- The joined expression `"|".join(piece + "$" for ...)` built by
`compile_suffix_regex`. -/
def suffixPattern (entries : List String) : String :=
  String.intercalate "|" ((entries.filter nonblank).map (fun p => p ++ "$"))

/-- The joined expression built by `compile_infix_regex`. -/
def infixPattern (entries : List String) : String :=
  String.intercalate "|" (entries.filter nonblank)

/-- Embedding of `compile_suffix_regex(entries)` from `spacy/util.py`. -/
def compile_suffix_regex (entries : List String) : Except Unit ReM.RE :=
  match ReM.parseRE (suffixPattern entries) with
  | some r => .ok r
  | none => .error ()

/-- Embedding of `compile_infix_regex(entries)` from `spacy/util.py`. -/
def compile_infix_regex (entries : List String) : Except Unit ReM.RE :=
  match ReM.parseRE (infixPattern entries) with
  | some r => .ok r
  | none => .error ()

/-- Search with the compiled prefix matcher (`none` when compilation failed
or nothing matches), as the tokenizer's `prefix_search` would call it. -/
def prefixSearch (entries : List String) (text : String) : Option (Nat × Nat) :=
  match compile_prefix_regex entries with
  | .ok r => ReM.reSearch r text
  | .error _ => none

/-- Search with the compiled suffix matcher. -/
def suffixSearch (entries : List String) (text : String) : Option (Nat × Nat) :=
  match compile_suffix_regex entries with
  | .ok r => ReM.reSearch r text
  | .error _ => none

/-- Take the first `n` characters, on the code-point list underlying the
string (what Python string slicing does). -/
def strTake (s : String) (n : Nat) : String := String.mk (s.data.take n)

/-- Drop the first `n` characters. -/
def strDrop (s : String) (n : Nat) : String := String.mk (s.data.drop n)

/-- The tokenizer's repeated prefix-stripping loop, driven by the compiled
prefix matcher: as long as the matcher strips a non-empty prefix, emit it
and continue on the remainder; the final remainder (if non-empty) is the
last token.  Fuel is the text length, enough for single-character strips. -/
def stripPrefixTokens : Nat → List String → String → List String
  | 0, _, text => if text = "" then [] else [text]
  | fuel+1, entries, text =>
    if text = "" then []
    else
      match prefixSearch entries text with
      | some (0, e) =>
        if 0 < e then
          strTake text e :: stripPrefixTokens fuel entries (strDrop text e)
        else [text]
      | _ => [text]

/-- Tokenization of a chunk by prefix stripping alone (no suffix/infix
rules in play), as in the claim's example. -/
def tokenizePrefixOnly (entries : List String) (text : String) : List String :=
  stripPrefixTokens text.length entries text

/-- The abstract syntax that `compile_suffix_regex ["ab"]` compiles to (the
pattern `ab$`), used as a concrete instance in witnesses. -/
def abEolRE : ReM.RE := .seq (.ch 'a') (.seq (.ch 'b') .eol)

/-- The abstract syntax that `compile_suffix_regex` produces for the
repository's own suffix rule `(?<=[0-9])\+` (from the Hungarian
`TOKENIZER_SUFFIXES`): the joined pattern `(?<=[0-9])\+$`, a
fixed-width lookbehind followed by an escaped plus and the anchor. -/
def lbPlusRE : ReM.RE :=
  .seq (.look true false (.cls false [.rng '0' '9'])) (.seq (.ch '+') .eol)

/-- Value under the `ORTH` key of a sub-token attribute record: either a
Python string, or some non-string value — the case rejected by
`update_exc`'s `isinstance(attr[ORTH], str)` check. -/
inductive OrthVal where
  | str (s : String)
  | nonStr (tag : Nat)
deriving Repr, DecidableEq

/-- One sub-token attribute record of a tokenizer exception.  Only the
`ORTH` value matters to `update_exc` / `expand_exc`; `norm` stands for the
remaining attributes, which `_fix_token` copies unchanged. -/
structure Tok where
  orth : OrthVal
  norm : Option String := none
deriving Repr, DecidableEq

/-- Whether the `ORTH` value is a string (`isinstance(attr[ORTH], str)`). -/
def orthIsStr (t : Tok) : Bool :=
  match t.orth with
  | .str _ => true
  | .nonStr _ => false

/-- The `ORTH` string of a validated sub-token (only read after the
all-strings check, as in the source's `"".join(...)`). -/
def orthString (t : Tok) : String :=
  match t.orth with
  | .str s => s
  | .nonStr _ => ""

/-- `"".join` of the sub-tokens' ORTH strings (`described_orth`). -/
def joinOrths (toks : List Tok) : String :=
  String.mk ((toks.map (fun t => (orthString t).data)).flatten)

/-- Python dict as an insertion-ordered association list; `dinsert`
overwrites an existing key in place (the key keeps its position, as in
CPython) or appends a new key at the end. -/
def dinsert {α : Type} (d : List (String × α)) (k : String) (v : α) :
    List (String × α) :=
  match d with
  | [] => [(k, v)]
  | (k2, v2) :: rest => if k2 = k then (k, v) :: rest else (k2, v2) :: dinsert rest k v

/-- `d.update(e)`: fold `e`'s items into `d` in order. -/
def dmerge {α : Type} (d e : List (String × α)) : List (String × α) :=
  e.foldl (fun acc kv => dinsert acc kv.1 kv.2) d

/-- Dict lookup. -/
def dlookup {α : Type} (d : List (String × α)) (k : String) : Option α :=
  (d.find? (fun kv => kv.1 == k)).map (fun kv => kv.2)

/-- `str.replace` worker on code-point lists: scan left to right, replace
non-overlapping occurrences of `search`; the fuel starts at the length of
the input and never runs out, since every step consumes input. -/
def replaceLF : Nat → List Char → List Char → List Char → List Char
  | 0, _, _, l => l
  | fuel+1, search, repl, l =>
    match l with
    | [] => []
    | c :: rest =>
      if search ≠ [] ∧ search.isPrefixOf (c :: rest) then
        repl ++ replaceLF fuel search repl ((c :: rest).drop search.length)
      else
        c :: replaceLF fuel search repl rest

/-- `haystack.replace(search, repl)` (Python `str.replace`: all
non-overlapping occurrences, left to right). -/
def pyReplace (s search repl : String) : String :=
  String.mk (replaceLF s.data.length search.data repl.data s.data)

/-- `search in s` worker on code-point lists. -/
def containsL (search : List Char) : List Char → Bool
  | [] => search.isEmpty
  | c :: rest => search.isPrefixOf (c :: rest) || containsL search rest

/-- Python's substring test `search in s`. -/
def pyContains (s search : String) : Bool := containsL search.data s.data

/-- The ASCII apostrophe, the `search` argument `update_exc` passes to
`expand_exc` (written via its code point to keep the file free of literal
apostrostrophes). -/
def apos : String := String.mk [Char.ofNat 39]

/-- The typographic apostrophe U+2019, the `replace` argument. -/
def typoApos : String := String.mk [Char.ofNat 8217]

/-- A tokenizer-exception table: insertion-ordered dict from surface key
to the list of sub-token records. -/
abbrev ExcTable := List (String × List Tok)

/-- `_fix_token(token, search, replace)` from `expand_exc`: copy the
record, applying `str.replace` to the `ORTH` value.  On a non-string
`ORTH` Python raises `AttributeError` (an int has no `.replace`) — a
reachable path, since base entries are never validated — modelled as
`none`. -/
def fixToken (search repl : String) (t : Tok) : Option Tok :=
  match t.orth with
  | .str s => some { t with orth := .str (pyReplace s search repl) }
  | .nonStr _ => none

/-- `[_fix_token(t, search, replace) for t in tokens]`: the rewritten
sub-token list, `none` as soon as one `_fix_token` call raises. -/
def fixTokens (search repl : String) : List Tok → Option (List Tok)
  | [] => some []
  | t :: ts => do
    let u ← fixToken search repl t
    let us ← fixTokens search repl ts
    some (u :: us)

/-- Proof-side total rewrite of one sub-token: what `_fix_token` returns
on the string-`ORTH` tokens it succeeds on (`fixToken` is `some` of this
exactly there, and `none` elsewhere). -/
def fixTokenT (search repl : String) (t : Tok) : Tok :=
  match t.orth with
  | .str s => { t with orth := .str (pyReplace s search repl) }
  | _ => t

/-- One step of the `expand_exc` loop: on an entry whose key contains
`search`, insert the entry under the replaced key with every sub-token
rewritten — or propagate the `AttributeError` raised by `_fix_token`,
which aborts the rest of the loop. -/
def expandStepE (search repl : String) (acc : Except String ExcTable)
    (kv : String × List Tok) : Except String ExcTable :=
  match acc with
  | .error e => .error e
  | .ok d =>
    if pyContains kv.1 search then
      match fixTokens search repl kv.2 with
      | some vs => .ok (dinsert d (pyReplace kv.1 search repl) vs)
      | none => .error "AttributeError"
    else .ok d

/-- Embedding of `expand_exc(excs, search, replace)` from `spacy/util.py`:
`new_excs = dict(excs)`, then for each entry of `excs` (in insertion
order) whose key contains `search`, insert the entry under the replaced
key with `_fix_token` applied to every sub-token; a non-string `ORTH`
under such a key raises `AttributeError`. -/
def expand_exc (excs : ExcTable) (search repl : String) : Except String ExcTable :=
  excs.foldl (expandStepE search repl) (.ok excs)

/-- The validation `update_exc` runs on one entry of an addition table:
every sub-token ORTH must be a string (`Errors.E055`), and the
concatenation of the ORTH strings must equal the key (`Errors.E056`). -/
def checkEntry (k : String) (toks : List Tok) : Except String Unit :=
  if ¬ (toks.all orthIsStr) then .error "E055"
  else if k ≠ joinOrths toks then .error "E056"
  else .ok ()

/-- Validate every entry of one addition table, in order, stopping at the
first failure (the loop body of `update_exc`). -/
def checkTable : ExcTable → Except String Unit
  | [] => .ok ()
  | (k, toks) :: rest => do
    checkEntry k toks
    checkTable rest

/-- The merging loop of `update_exc`: validate each addition table, then
fold it into the accumulated dict with `exc.update(additions)`. -/
def update_exc_go (exc : ExcTable) : List ExcTable → Except String ExcTable
  | [] => .ok exc
  | additions :: rest => do
    checkTable additions
    update_exc_go (dmerge exc additions) rest

/-- Embedding of `update_exc(base_exceptions, *addition_dicts)` from
`spacy/util.py`: start from `dict(base_exceptions)` (base entries are
never validated), validate-and-merge each addition table in order, then
apply `expand_exc(exc, "'", "’")` — which can itself raise, out of
`_fix_token`, on an unvalidated base entry. -/
def update_exc (base : ExcTable) (adds : List ExcTable) : Except String ExcTable :=
  match update_exc_go base adds with
  | .ok exc => expand_exc exc apos typoApos
  | .error e => .error e

/-- The combined table without the validation step: what `update_exc`
computes before the apostrophe expansion when nothing fails. -/
def dmergeAll (base : ExcTable) (adds : List ExcTable) : ExcTable :=
  adds.foldl dmerge base

/-- Replacement of every ASCII apostrophe by the typographic one, as a
per-character map: the specialisation of `str.replace` to the
single-character search string `update_exc` uses. -/
def substApos (l : List Char) : List Char :=
  l.flatMap (fun x => if x = Char.ofNat 39 then [Char.ofNat 8217] else [x])

/-- Proof-side pure step of the expansion loop at `update_exc`'s
arguments: the trace of `expandStepE` on tables where no `_fix_token`
call raises. -/
def expandStep (acc : ExcTable) (kv : String × List Tok) : ExcTable :=
  if pyContains kv.1 apos then
    dinsert acc (pyReplace kv.1 apos typoApos) (kv.2.map (fixTokenT apos typoApos))
  else acc

/-- Whether an exception entry satisfies the self-consistency invariant
with string-only sub-token ORTHs. -/
def entryGood (kv : String × List Tok) : Prop :=
  kv.2.all orthIsStr = true ∧ kv.1 = joinOrths kv.2

/-- The string `a'b` (ASCII apostrophe), a concrete exception key. -/
def keyAsc : String := String.mk ['a', Char.ofNat 39, 'b']

/-- The string `a’b` (typographic apostrophe). -/
def keyTyp : String := String.mk ['a', Char.ofNat 8217, 'b']

/-- The string `a’` (typographic apostrophe). -/
def keyTypA : String := String.mk ['a', Char.ofNat 8217]

/-- The string `a'` (ASCII apostrophe). -/
def keyAscA : String := String.mk ['a', Char.ofNat 39]

/-- A two-entry addition table in which both entries pass validation but
whose keys collide after apostrophe expansion: `a’b` split as
`[a’, b]`, and `a'b` kept whole. -/
def cexAdd : ExcTable :=
  [(keyTyp, [⟨.str keyTypA, none⟩, ⟨.str "b", none⟩]),
   (keyAsc, [⟨.str keyAsc, none⟩])]

/-- What `update_exc {} [cexAdd]` actually returns: the expansion of
`a'b` has overwritten the entry the addition gave for `a’b`. -/
def cexResult : ExcTable :=
  [(keyTyp, [⟨.str keyTyp, none⟩]), (keyAsc, [⟨.str keyAsc, none⟩])]

/-- A base table whose single entry violates self-consistency (base
entries are never validated by `update_exc`). -/
def cexBase : ExcTable := [(keyAscA, [⟨.str "x", none⟩])]

/-- A base table whose single entry has an apostrophe key and a
non-string sub-token `ORTH`: it bypasses validation, and `_fix_token`
raises `AttributeError` on it inside the final `expand_exc`. -/
def cexBadBase : ExcTable := [(keyAscA, [⟨.nonStr 0, none⟩])]

/-- What `update_exc cexBase []` returns: the expansion duplicated the
inconsistent base entry under the typographic key. -/
def cexBaseResult : ExcTable :=
  [(keyAscA, [⟨.str "x", none⟩]), (keyTypA, [⟨.str "x", none⟩])]

/-- The table `update_exc {} [{a' : [a']}]` returns, for the C8 witness. -/
def w8tbl : ExcTable :=
  [(keyAscA, [⟨.str keyAscA, none⟩]), (keyTypA, [⟨.str keyTypA, none⟩])]

/-- A span over token indices as `filter_spans` uses it: the fields
`start` and `end` (here `end_`, since `end` is a Lean keyword). -/
structure Span where
  start : Int
  end_ : Int
deriving Repr, DecidableEq

/-- Length of a span, the primary sort key of `filter_spans`. -/
def spanLen (s : Span) : Int := s.end_ - s.start

/-- The strict priority order realised by
`sorted(spans, key=lambda s: (s.end - s.start, -s.start), reverse=True)`:
`a` strictly precedes `b` when `a` is longer, or equally long with the
smaller start; ties keep input order (Python's sort is stable). -/
def spanBefore (a b : Span) : Bool :=
  spanLen b < spanLen a ∨ (spanLen a = spanLen b ∧ a.start < b.start)

/-- Stable insertion: `x` goes immediately before the first element it
strictly precedes, hence after every earlier-or-equal element. -/
def sinsert (lt : Span → Span → Bool) (x : Span) : List Span → List Span
  | [] => [x]
  | y :: ys => if lt x y then x :: y :: ys else y :: sinsert lt x ys

/-- Stable insertion sort: the model of Python's stable `sorted`. -/
def ssort (lt : Span → Span → Bool) : List Span → List Span
  | [] => []
  | x :: xs => sinsert lt x (ssort lt xs)

/-- `range(start, end)` over `Int`, as a list (the argument of
`seen_tokens.update(...)`). -/
def rangeL (s e : Int) : List Int :=
  (List.range (e - s).toNat).map (fun (i : Nat) => s + (i : Int))

/-- The greedy loop of `filter_spans`: accept a span when neither its
start nor its `end - 1` index has been seen; mark its whole range seen
whether or not it was accepted. -/
def fsLoop : List Span → List Span → List Int → List Span
  | [], res, _ => res
  | s :: rest, res, seen =>
    if s.start ∉ seen ∧ s.end_ - 1 ∉ seen then
      fsLoop rest (res ++ [s]) (seen ++ rangeL s.start s.end_)
    else
      fsLoop rest res (seen ++ rangeL s.start s.end_)

/-- Embedding of `filter_spans(spans)` from `spacy/util.py`: sort by
priority, run the greedy loop, then sort the survivors by start. -/
def filter_spans (spans : List Span) : List Span :=
  ssort (fun a b => a.start < b.start) (fsLoop (ssort spanBefore spans) [] [])

/-- The token indices covered by a list of processed spans (proof-side
description of the `seen_tokens` set). -/
def seenOf (ps : List Span) : List Int :=
  (ps.map (fun p => rangeL p.start p.end_)).flatten

/-- Ghost version of the greedy loop carrying the processed spans instead
of the seen-token list. -/
def fsAux : List Span → List Span → List Span
  | [], _ => []
  | s :: rest, procd =>
    (if s.start ∉ seenOf procd ∧ s.end_ - 1 ∉ seenOf procd then [s] else []) ++
      fsAux rest (procd ++ [s])

/-- Two spans overlap when they share a token index (for `start < end`
spans this is exactly interval intersection). -/
def overlap (a b : Span) : Prop := a.start < b.end_ ∧ b.start < a.end_

/-- Embedding of `normalize_slice(length, start, stop, step)` from
`spacy/util.py`.  Python ints are modelled as `Int`; `None` as `none`;
`raise ValueError(Errors.E057)` as `Except.error`. -/
def normalize_slice (length : Int) (start stop : Option Int) (step : Option Int := none) :
    Except String (Int × Int) :=
  if ¬ (step = none ∨ step = some 1) then
    .error "E057"
  else
    let start1 : Int := match start with
      | none => 0
      | some s => if s < 0 then s + length else s
    let start2 : Int := min length (max 0 start1)
    let stop1 : Int := match stop with
      | none => length
      | some t => if t < 0 then t + length else t
    let stop2 : Int := min length (max start2 stop1)
    .ok (start2, stop2)

end SpacyUtil

namespace ArcEager

/-- Modelled from the spec: the parse state of the arc-eager transition
system lives in Cython modules (`spacy/syntax/_state`, `arc_eager`) that
are not under `src/`; this model follows spec §3 (ParseState), §4.4
(transition system) and §4.5 (driver).  Tokens are the indices
`0 .. n-1`; the artificial root is the extra index `n`.  `heads` records
the (head index, dependency label) assigned to each token, `none` while
unassigned; `bounds` lists the sentence-boundary positions BREAK may act
on (empty for a plain, unannotated token sequence). -/
structure PState where
  n : Nat
  stack : List Nat
  buffer : List Nat
  heads : List (Option (Nat × Nat))
  bounds : List Nat
deriving Repr, DecidableEq

/-- The initial configuration: stack holds only the artificial root, the
buffer holds all tokens in order, no head assigned. -/
def init (n : Nat) (bounds : List Nat) : PState :=
  ⟨n, [n], List.range n, List.replicate n none, bounds⟩

/-- The head/label recorded for token `i` (`none` for the root, for
out-of-range indices and while unassigned). -/
def headOf (s : PState) (i : Nat) : Option (Nat × Nat) :=
  match s.heads[i]? with
  | some h => h
  | none => none

/-- The transition inventory of spec §4.4. -/
inductive PTrans where
  | shift
  | leftArc (lbl : Nat)
  | rightArc (lbl : Nat)
  | reduce
  | brk
deriving Repr, DecidableEq

/-- Preconditions, from spec §4.4.  LEFT-ARC's effect reads the buffer
front ("set head of stack-top = buffer-front"), so the model additionally
requires a non-empty buffer there; BREAK requires the buffer front to be
a sentence-boundary position. -/
def legal (s : PState) : PTrans → Bool
  | .shift => !s.buffer.isEmpty
  | .rightArc _ => !s.buffer.isEmpty && !s.stack.isEmpty
  | .leftArc _ =>
    match s.stack.head?, s.buffer.head? with
    | some t, some _ => decide (t ≠ s.n) && (headOf s t).isNone
    | _, _ => false
  | .reduce =>
    match s.stack.head? with
    | some t => (headOf s t).isSome
    | none => false
  | .brk =>
    match s.buffer.head? with
    | some f => s.bounds.contains f
    | none => false

/-- Effects, from spec §4.4; `none` when the precondition fails (the
driver never executes an illegal transition). -/
def applyT (s : PState) (t : PTrans) : Option PState :=
  if legal s t then
    match t with
    | .shift =>
      match s.buffer with
      | f :: rest => some { s with stack := f :: s.stack, buffer := rest }
      | [] => none
    | .rightArc lbl =>
      match s.buffer, s.stack with
      | f :: rest, t0 :: _ =>
        some { s with heads := s.heads.set f (some (t0, lbl)),
                      stack := f :: s.stack, buffer := rest }
      | _, _ => none
    | .leftArc lbl =>
      match s.stack, s.buffer with
      | t0 :: srest, f :: _ =>
        some { s with heads := s.heads.set t0 (some (f, lbl)), stack := srest }
      | _, _ => none
    | .reduce =>
      match s.stack with
      | _ :: srest => some { s with stack := srest }
      | [] => none
    | .brk =>
      match s.buffer with
      | f :: _ => some { s with stack := [s.n], bounds := s.bounds.erase f }
      | [] => none
  else none

/-- Run a transition sequence from a state; fails on an illegal move. -/
def runFrom (s : PState) : List PTrans → Option PState
  | [] => some s
  | t :: ts =>
    match applyT s t with
    | some s2 => runFrom s2 ts
    | none => none

/-- Terminal configuration (spec §4.4): buffer empty and stack only the
artificial root. -/
def isTerminal (s : PState) : Bool := s.buffer.isEmpty && s.stack = [s.n]

/-- Whether any transition at all is legal in `s` (legality of the arc
transitions does not depend on the label). -/
def anyLegal (s : PState) : Bool :=
  legal s .shift || legal s (.leftArc 0) || legal s (.rightArc 0) ||
    legal s .reduce || legal s .brk

/-- The step measure: every legal transition strictly decreases it. -/
def phi (s : PState) : Nat := 2 * s.buffer.length + s.stack.length + s.bounds.length

/-- Invariant for the single-head theorem: buffer indices are distinct
in-range tokens, disjoint from the stack, and still headless; the heads
array has one slot per token. -/
def InvHeads (s : PState) : Prop :=
  s.buffer.Nodup ∧ (∀ i ∈ s.buffer, i < s.n) ∧
    (∀ i ∈ s.stack, i ∉ s.buffer) ∧
    (∀ i ∈ s.buffer, headOf s i = none) ∧ s.heads.length = s.n

/-- Invariant for the termination/coverage theorem on plain token
sequences (no sentence boundaries): the root stays at the bottom of a
non-empty stack, and every token is in the buffer, on the stack, or
already headed. -/
def InvRun (s : PState) : Prop :=
  s.bounds = [] ∧ s.stack ≠ [] ∧ s.stack.getLast? = some s.n ∧
    s.heads.length = s.n ∧
    ∀ i, i < s.n → i ∈ s.buffer ∨ i ∈ s.stack ∨ (headOf s i).isSome

end ArcEager

namespace SpecTok

/-- Modelled from the spec: the tokenizer proper lives in a Cython module
(`spacy/tokenizer.pyx`) that is not under `src/`; this model follows spec
§4.2 (state machine per whitespace-delimited chunk, prefix/suffix
stripping with exception re-checking, infix splitting, and the
trailing-space flag convention for whitespace between chunks).  Affix
rules and the exception table are abstract lists of code points. -/
structure Config where
  prefixes : List (List Char)
  suffixes : List (List Char)
  infixes : List (List Char)
  exceptions : List (List Char × List (List Char))

/-- Whitespace for chunk splitting (space, newline, tab). -/
def isWsChar (c : Char) : Bool := c = ' ' || c = '\n' || c = '\t'

/-- Split into maximal runs of whitespace / non-whitespace characters;
`acc` holds the current run reversed. -/
def runsAux : List Char → List Char → List (List Char)
  | acc, [] => if acc.isEmpty then [] else [acc.reverse]
  | acc, c :: rest =>
    match acc with
    | [] => runsAux [c] rest
    | a :: _ =>
      if isWsChar a == isWsChar c then runsAux (c :: acc) rest
      else acc.reverse :: runsAux [c] rest

/-- The maximal homogeneous runs of a character list. -/
def runs (s : List Char) : List (List Char) := runsAux [] s

/-- Exception-table lookup on the exact chunk text (spec §4.2 step 1). -/
def findExc (excs : List (List Char × List (List Char))) (c : List Char) :
    Option (List (List Char)) :=
  excs.findSome? (fun kv => if kv.1 = c then some kv.2 else none)

/-- The longest pattern in `ps` that is a non-empty prefix of `c`
(spec §4.1: the prefix matcher returns the longest match; on ties the
later pattern is kept, which the spec leaves open). -/
def longestPre : List (List Char) → List Char → Option (List Char)
  | [], _ => none
  | p :: ps, c =>
    let rest := longestPre ps c
    if !p.isEmpty && p.isPrefixOf c then
      match rest with
      | none => some p
      | some q => if q.length < p.length then some p else some q
    else rest

/-- The longest pattern in `ps` that is a non-empty suffix of `c`. -/
def longestSuf : List (List Char) → List Char → Option (List Char)
  | [], _ => none
  | p :: ps, c =>
    let rest := longestSuf ps c
    if !p.isEmpty && p.isSuffixOf c then
      match rest with
      | none => some p
      | some q => if q.length < p.length then some p else some q
    else rest

/-- Spec §4.2 step 2: repeatedly strip the longest matching prefix from
the front and otherwise the longest matching suffix from the back,
re-checking the exception table against the remaining core each
iteration.  Returns (stripped prefixes in strip order, remaining core,
stripped suffixes in final surface order). -/
def stripLoop (cfg : Config) : Nat → List Char →
    List (List Char) × List Char × List (List Char)
  | 0, core => ([], core, [])
  | Nat.succ fuel, core =>
    if (findExc cfg.exceptions core).isSome then ([], core, [])
    else
      match longestPre cfg.prefixes core with
      | some p =>
        let r := stripLoop cfg fuel (core.drop p.length)
        (p :: r.1, r.2.1, r.2.2)
      | none =>
        match longestSuf cfg.suffixes core with
        | some q =>
          let r := stripLoop cfg fuel (core.take (core.length - q.length))
          (r.1, r.2.1, r.2.2 ++ [q])
        | none => ([], core, [])

/-- The first infix pattern that matches at the current position. -/
def findInfixAt (infixes : List (List Char)) (c : List Char) :
    Option (List Char) :=
  infixes.findSome? (fun m => if !m.isEmpty && m.isPrefixOf c then some m else none)

/-- Spec §4.2 step 3: scan the core left to right, splitting at each
infix match and inserting the matched infix as its own token; `acc`
holds the pending segment reversed. -/
def infixScan (infixes : List (List Char)) : Nat → List Char → List Char →
    List (List Char)
  | 0, acc, c => if acc.isEmpty && c.isEmpty then [] else [acc.reverse ++ c]
  | Nat.succ fuel, acc, c =>
    match c with
    | [] => if acc.isEmpty then [] else [acc.reverse]
    | ch :: rest =>
      match findInfixAt infixes c with
      | some m =>
        (if acc.isEmpty then [] else [acc.reverse]) ++
          m :: infixScan infixes fuel [] (c.drop m.length)
      | none => infixScan infixes fuel (ch :: acc) rest

/-- Spec §4.2 steps 1 to 4 for one whitespace-delimited chunk: exception
lookup, affix stripping with exception re-checking, infix splitting, and
in-order reassembly.  A chunk matching no rule falls through as a single
token (never an error). -/
def tokenizeChunk (cfg : Config) (chunk : List Char) : List (List Char) :=
  match findExc cfg.exceptions chunk with
  | some subs => subs
  | none =>
    let r := stripLoop cfg (chunk.length + 1) chunk
    match findExc cfg.exceptions r.2.1 with
    | some subs => r.1 ++ subs ++ r.2.2
    | none =>
      r.1 ++ infixScan cfg.infixes (r.2.1.length + 1) [] r.2.1 ++ r.2.2

/-- Set the trailing-space flag on the last emitted token. -/
def setLast : List (List Char × Bool) → List (List Char × Bool)
  | [] => []
  | [tb] => [(tb.1, true)]
  | tb :: xs => tb :: setLast xs

/-- Spec §4.2 whitespace rule over the run list: a run of exactly one
space becomes the trailing-space flag on the last token of the preceding
chunk; any other whitespace run is emitted as a whitespace token of its
own. -/
def goRuns (cfg : Config) : List (List Char) → List (List Char × Bool)
  | [] => []
  | r :: rest =>
    if r.all isWsChar then (r, false) :: goRuns cfg rest
    else
      match rest with
      | [] => (tokenizeChunk cfg r).map (fun t => (t, false))
      | w :: rest2 =>
        if w = [' '] then
          setLast ((tokenizeChunk cfg r).map (fun t => (t, false))) ++
            goRuns cfg rest2
        else
          (tokenizeChunk cfg r).map (fun t => (t, false)) ++
            goRuns cfg (w :: rest2)

/-- The tokenizer: ordered (surface, trailing-space flag) pairs. -/
def tokenize (cfg : Config) (text : String) : List (String × Bool) :=
  (goRuns cfg (runs text.data)).map (fun tb => (String.mk tb.1, tb.2))

/-- Re-join (surface, flag) pairs on code-point lists: each surface
followed by one space exactly when its flag is set. -/
def detokL (ts : List (List Char × Bool)) : List Char :=
  ts.flatMap (fun tb => tb.1 ++ if tb.2 then [' '] else [])

/-- Re-join emitted tokens into a string. -/
def detok (ts : List (String × Bool)) : String :=
  String.mk (detokL (ts.map (fun tb => (tb.1.data, tb.2))))

end SpecTok


/-- C10: for every length ≥ 0 and every start/stop each `none` or an integer,
`normalize_slice` with step `none` or `1` returns a pair `(s, t)` with
`0 ≤ s ≤ t ≤ length`, and for any other step it raises `ValueError`. -/
theorem normalize_slice_spec (length : Int) (start stop step : Option Int)
    (hlen : 0 ≤ length) :
    ((step = none ∨ step = some 1) →
      ∃ s t, SpacyUtil.normalize_slice length start stop step = .ok (s, t) ∧
        0 ≤ s ∧ s ≤ t ∧ t ≤ length) ∧
    (¬ (step = none ∨ step = some 1) →
      SpacyUtil.normalize_slice length start stop step = .error "E057") := by
  constructor
  · intro hstep
    set start1 : Int := (match start with
      | none => 0
      | some s => if s < 0 then s + length else s) with hs1
    set stop1 : Int := (match stop with
      | none => length
      | some t => if t < 0 then t + length else t) with ht1
    refine ⟨min length (max 0 start1), min length (max (min length (max 0 start1)) stop1),
      ?_, ?_, ?_, ?_⟩
    · simp only [SpacyUtil.normalize_slice, if_neg (not_not_intro hstep)]
    · exact le_min hlen (le_max_left 0 _)
    · exact le_min (min_le_left _ _) (le_max_left _ _)
    · exact min_le_left _ _
  · intro hstep
    simp only [SpacyUtil.normalize_slice, if_pos hstep]

/-- Witness for C10 at `length = 5`, `start = some (-2)`, `stop = none`, `step = some 1`. -/
theorem normalize_slice_spec_witness :
    (0:Int) ≤ 5 ∧
    ((some 1 = (none : Option Int) ∨ some (1:Int) = some 1) →
      ∃ s t, SpacyUtil.normalize_slice 5 (some (-2)) none (some 1) = .ok (s, t) ∧
        0 ≤ s ∧ s ≤ t ∧ t ≤ 5) :=
  ⟨by norm_num, (normalize_slice_spec 5 (some (-2)) none (some 1) (by norm_num)).1⟩

/-! Lemmas about the regex engine, leading to the affix-compiler claims. -/

theorem drop_eq_cons_of_getElem? {s : List Char} {i : Nat} {d : Char}
    (h : s[i]? = some d) : s.drop i = d :: s.drop (i+1) := by
  have hlt : i < s.length := (List.getElem?_eq_some_iff.mp h).1
  rw [List.drop_eq_getElem_cons hlt]
  simp_all

theorem litMatch_isPrefixOf (cs s : List Char) (i : Nat) :
    ReM.litMatch cs s i = cs.isPrefixOf (s.drop i) := by
  induction cs generalizing i with
  | nil => simp [ReM.litMatch]
  | cons c cs ih =>
    cases h : s[i]? with
    | none =>
      have hle : s.length ≤ i := by
        by_contra hlt
        push_neg at hlt
        simp [List.getElem?_eq_getElem hlt] at h
      simp [ReM.litMatch, h, List.drop_eq_nil_of_le hle, List.isPrefixOf]
    | some d =>
      rw [drop_eq_cons_of_getElem? h]
      simp only [ReM.litMatch, h, List.isPrefixOf, ih]
      by_cases hdc : d = c
      · subst hdc; simp
      · rw [beq_eq_false_iff_ne.mpr hdc, beq_eq_false_iff_ne.mpr (Ne.symm hdc)]

theorem ends_litRE (cs s : List Char) (i : Nat) :
    ReM.ends (SpacyUtil.litRE cs) s i =
      if ReM.litMatch cs s i then [i + cs.length] else [] := by
  induction cs generalizing i with
  | nil => simp [SpacyUtil.litRE, ReM.ends, ReM.litMatch]
  | cons c cs ih =>
    cases cs with
    | nil =>
      cases h : s[i]? with
      | none => simp [SpacyUtil.litRE, ReM.ends, ReM.litMatch, h]
      | some d =>
        by_cases hdc : d = c
        · subst hdc; simp [SpacyUtil.litRE, ReM.ends, ReM.litMatch, h]
        · simp [SpacyUtil.litRE, ReM.ends, ReM.litMatch, h, hdc,
            beq_eq_false_iff_ne.mpr hdc]
    | cons c2 cs2 =>
      have hlit : SpacyUtil.litRE (c :: c2 :: cs2) =
          .seq (.ch c) (SpacyUtil.litRE (c2 :: cs2)) := rfl
      rw [hlit]
      cases h : s[i]? with
      | none => simp [ReM.ends, ReM.litMatch, h]
      | some d =>
        by_cases hdc : d = c
        · have h1 : ReM.ends (.seq (.ch c) (SpacyUtil.litRE (c2 :: cs2))) s i
              = ReM.ends (SpacyUtil.litRE (c2 :: cs2)) s (i+1) := by
            simp [ReM.ends, h, hdc]
          have h2 : ReM.litMatch (c :: c2 :: cs2) s i
              = ReM.litMatch (c2 :: cs2) s (i+1) := by
            simp [ReM.litMatch, h, hdc]
          rw [h1, h2, ih]
          by_cases hm : ReM.litMatch (c2 :: cs2) s (i + 1) = true
          · simp only [hm, if_pos rfl, List.length_cons]
            have : i + 1 + (cs2.length + 1) = i + (cs2.length + 1 + 1) := by omega
            rw [this]
          · simp [hm]
        · have h1 : ReM.ends (.seq (.ch c) (SpacyUtil.litRE (c2 :: cs2))) s i = [] := by
            simp [ReM.ends, h, hdc]
          have h2 : ReM.litMatch (c :: c2 :: cs2) s i = false := by
            simp [ReM.litMatch, h, beq_eq_false_iff_ne.mpr hdc]
          rw [h1, h2]
          simp

theorem ends_anchor_lit (cs s : List Char) (i : Nat) :
    ReM.ends (.seq .bol (SpacyUtil.litRE cs)) s i =
      if i = 0 ∧ ReM.litMatch cs s 0 then [cs.length] else [] := by
  cases i with
  | zero =>
    have h1 : ReM.ends (.seq .bol (SpacyUtil.litRE cs)) s 0
        = ReM.ends (SpacyUtil.litRE cs) s 0 := by
      simp [ReM.ends]
    rw [h1, ends_litRE]
    by_cases hm : ReM.litMatch cs s 0 = true
    · simp [hm]
    · simp [hm]
  | succ n =>
    have h1 : ReM.ends (.seq .bol (SpacyUtil.litRE cs)) s (n+1) = [] := by
      simp [ReM.ends]
    rw [h1]
    simp

theorem altList_cons_cons (r r2 : ReM.RE) (rs : List ReM.RE) :
    SpacyUtil.altList (r :: r2 :: rs) = .alt r (SpacyUtil.altList (r2 :: rs)) := rfl

theorem ends_alt (a b : ReM.RE) (s : List Char) (i : Nat) :
    ReM.ends (.alt a b) s i = ReM.ends a s i ++ ReM.ends b s i := by
  rw [ReM.ends]

theorem head_ends_altList (ps : List String) (s : List Char) (hne : ps ≠ []) :
    (ReM.ends
        (SpacyUtil.altList (ps.map (fun p => ReM.RE.seq .bol (SpacyUtil.litRE p.data))))
        s 0).head?
      = (ps.find? (fun p => ReM.litMatch p.data s 0)).map (fun p => p.data.length) := by
  induction ps with
  | nil => exact absurd rfl hne
  | cons p ps ih =>
    cases ps with
    | nil =>
      simp only [List.map_cons, List.map_nil, SpacyUtil.altList, ends_anchor_lit]
      by_cases hm : ReM.litMatch p.data s 0 = true
      · simp [hm, List.find?_cons_of_pos]
      · rw [List.find?_cons_of_neg _ (by simp [hm])]
        simp [hm]
    | cons q qs =>
      simp only [List.map_cons, altList_cons_cons, ends_alt, ends_anchor_lit]
      by_cases hm : ReM.litMatch p.data s 0 = true
      · simp [hm, List.find?_cons_of_pos]
      · rw [List.find?_cons_of_neg _ (by simp [hm])]
        have hrec := ih (by simp)
        simp only [List.map_cons] at hrec
        simp only [hm, and_false, if_false, List.nil_append]
        exact hrec

theorem ends_altList_pos (ps : List String) (s : List Char) (i : Nat)
    (hne : ps ≠ []) (hi : i ≠ 0) :
    ReM.ends
      (SpacyUtil.altList (ps.map (fun p => ReM.RE.seq .bol (SpacyUtil.litRE p.data))))
      s i = [] := by
  induction ps with
  | nil => exact absurd rfl hne
  | cons p ps ih =>
    cases ps with
    | nil =>
      simp only [List.map_cons, List.map_nil, SpacyUtil.altList, ends_anchor_lit]
      simp [hi]
    | cons q qs =>
      simp only [List.map_cons, altList_cons_cons, ends_alt, ends_anchor_lit]
      have hrec := ih (by simp)
      simp only [List.map_cons] at hrec
      rw [hrec]
      simp [hi]

/-- C1 (amended): in the branch the claim's example exercises (the entries
contain `"("`, so the source escapes each piece and joins the start-anchored
literals), the compiled prefix matcher returns the match of the FIRST
alternative in pattern-list order that matches at position 0 — not the
longest one; consequently, on `"((Hello"` with prefixes `["(", "(("]` the
match is `"("` and repeated prefix stripping emits `["(", "(", "Hello"]`,
not `["((", "Hello"]`. -/
theorem compile_prefix_first_alternative (entries : List String) (text : String)
    (hdep : entries.contains "(" = true) :
    SpacyUtil.prefixSearch entries text =
      ((entries.filter SpacyUtil.nonblank).find?
          (fun p => p.data.isPrefixOf text.data)).map (fun p => ((0:Nat), p.length)) ∧
    SpacyUtil.tokenizePrefixOnly ["(", "(("] "((Hello" = ["(", "(", "Hello"] := by
  constructor
  · have hmem : "(" ∈ entries := List.mem_of_elem_eq_true hdep
    have hpm : "(" ∈ entries.filter SpacyUtil.nonblank :=
      List.mem_filter.mpr ⟨hmem, by decide⟩
    have hne : entries.filter SpacyUtil.nonblank ≠ [] := List.ne_nil_of_mem hpm
    have hpred : ∀ p : String, ReM.litMatch p.data text.data 0 = p.data.isPrefixOf text.data := by
      intro p
      rw [litMatch_isPrefixOf, List.drop_zero]
    unfold SpacyUtil.prefixSearch SpacyUtil.compile_prefix_regex
    rw [if_pos hdep]
    show ReM.reSearch _ text = _
    unfold ReM.reSearch
    rw [List.range_succ_eq_map, List.findSome?_cons]
    rw [head_ends_altList _ _ hne]
    cases hf : (entries.filter SpacyUtil.nonblank).find?
        (fun p => ReM.litMatch p.data text.data 0) with
    | some p =>
      have hf2 : (entries.filter SpacyUtil.nonblank).find?
          (fun p => p.data.isPrefixOf text.data) = some p := by
        rw [show (fun p : String => p.data.isPrefixOf text.data)
              = (fun p : String => ReM.litMatch p.data text.data 0) from
            funext fun p => (hpred p).symm]
        exact hf
      rw [hf2]
      rfl
    | none =>
      have hf2 : (entries.filter SpacyUtil.nonblank).find?
          (fun p => p.data.isPrefixOf text.data) = none := by
        rw [show (fun p : String => p.data.isPrefixOf text.data)
              = (fun p : String => ReM.litMatch p.data text.data 0) from
            funext fun p => (hpred p).symm]
        exact hf
      rw [hf2]
      show (match (none : Option (Nat × Nat)) with
        | some b => some b
        | none =>
          List.findSome?
            (fun i =>
              match (ReM.ends (SpacyUtil.altList
                  (List.map (fun p => ReM.RE.bol.seq (SpacyUtil.litRE p.data))
                    (List.filter SpacyUtil.nonblank entries))) text.data i).head? with
              | some e => some (i, e)
              | none => none)
            (List.map Nat.succ (List.range text.data.length))) = none
      simp only []
      apply List.findSome?_eq_none_iff.mpr
      intro j hj
      obtain ⟨k, hk, rfl⟩ := List.mem_map.mp hj
      rw [ends_altList_pos _ _ _ hne (Nat.succ_ne_zero k)]
      rfl
  · decide

/-- Witness for `compile_prefix_first_alternative` at the claim's own
example: entries `["(", "(("]` and input `"((Hello"`. -/
theorem compile_prefix_first_alternative_witness :
    (["(", "(("].contains "(" = true) ∧
    (SpacyUtil.prefixSearch ["(", "(("] "((Hello" =
      ((["(", "(("].filter SpacyUtil.nonblank).find?
          (fun p => p.data.isPrefixOf "((Hello".data)).map (fun p => ((0:Nat), p.length)) ∧
     SpacyUtil.tokenizePrefixOnly ["(", "(("] "((Hello" = ["(", "(", "Hello"]) :=
  ⟨by decide, compile_prefix_first_alternative ["(", "(("] "((Hello" (by decide)⟩

/-- C1 counterexample to the claim as stated: with the ordered prefix list
`["(", "(("]`, the longer alternative `"(("` does match `"((Hello"` at
position 0, yet the compiled matcher returns the span of the shorter first
alternative, `(0, 1)` and not `(0, 2)`; repeated stripping therefore emits
`["(", "(", "Hello"]`, not `["((", "Hello"]`. -/
theorem compile_prefix_not_longest :
    SpacyUtil.prefixSearch ["(", "(("] "((Hello" = some (0, 1) ∧
    ("((").data.isPrefixOf ("((Hello").data = true ∧
    SpacyUtil.prefixSearch ["(", "(("] "((Hello" ≠ some (0, 2) ∧
    SpacyUtil.tokenizePrefixOnly ["(", "(("] "((Hello" ≠ ["((", "Hello"] := by
  refine ⟨by decide, by decide, by decide, by decide⟩

/-! Lemmas for the suffix matcher's `$` anchoring (C6). -/

theorem ends_endsWithEol (r : ReM.RE) (s : List Char)
    (h : ReM.endsWithEol r = true) :
    ∀ i e, e ∈ ReM.ends r s i →
      e = s.length ∨ (e + 1 = s.length ∧ s[e]? = some '\n') := by
  induction r with
  | eps => simp [ReM.endsWithEol] at h
  | ch c => simp [ReM.endsWithEol] at h
  | dot => simp [ReM.endsWithEol] at h
  | cls neg items => simp [ReM.endsWithEol] at h
  | look behind neg a iha => simp [ReM.endsWithEol] at h
  | seq a b iha ihb =>
    intro i e he
    rw [show ReM.ends (.seq a b) s i
        = (ReM.ends a s i).flatMap (fun e => ReM.ends b s e) from by rw [ReM.ends]] at he
    obtain ⟨m, _, hmb⟩ := List.mem_flatMap.mp he
    exact ihb (by simpa [ReM.endsWithEol] using h) m e hmb
  | alt a b iha ihb => simp [ReM.endsWithEol] at h
  | star a iha => simp [ReM.endsWithEol] at h
  | bol => simp [ReM.endsWithEol] at h
  | eol =>
    intro i e he
    rw [show ReM.ends .eol s i
        = (if i = s.length ∨ (i + 1 = s.length ∧ s[i]? = some '\n') then [i] else [])
        from by rw [ReM.ends]] at he
    by_cases hc : i = s.length ∨ (i + 1 = s.length ∧ s[i]? = some '\n')
    · rw [if_pos hc] at he
      have : e = i := by simpa using he
      subst this
      exact hc
    · rw [if_neg hc] at he
      simp at he

theorem ends_suffixShaped (r : ReM.RE) (s : List Char)
    (h : ReM.suffixShaped r = true) :
    ∀ i e, e ∈ ReM.ends r s i →
      e = s.length ∨ (e + 1 = s.length ∧ s[e]? = some '\n') := by
  induction r with
  | alt a b iha ihb =>
    intro i e he
    rw [ends_alt] at he
    rcases List.mem_append.mp he with hmem | hmem
    · exact iha (by simp [ReM.suffixShaped] at h; exact h.1) i e hmem
    · exact ihb (by simp [ReM.suffixShaped] at h; exact h.2) i e hmem
  | eps => exact ends_endsWithEol _ s h
  | ch c => exact ends_endsWithEol _ s h
  | dot => exact ends_endsWithEol _ s h
  | cls neg items => exact ends_endsWithEol _ s h
  | seq a b iha ihb => exact ends_endsWithEol _ s h
  | star a iha => exact ends_endsWithEol _ s h
  | bol => exact ends_endsWithEol _ s h
  | eol => exact ends_endsWithEol _ s h
  | look behind neg a iha => exact ends_endsWithEol _ s h

/-- C6 (amended): a match returned by the suffix matcher compiled by
`compile_suffix_regex` ends at the end of the text OR one position before
it when the text ends with a newline (Python's `$` also matches just
before a terminating newline).  This holds whenever every top-level
alternative of the compiled pattern ends with the `$` anchor, which is the
shape the compiler produces unless an entry contains a top-level `|` of
its own (such an entry, e.g. `"a|b"`, escapes the anchor entirely). -/
theorem compile_suffix_end_anchored (entries : List String) (r : ReM.RE)
    (text : String) (i e : Nat)
    (hc : SpacyUtil.compile_suffix_regex entries = .ok r)
    (hshape : ReM.suffixShaped r = true)
    (hs : ReM.reSearch r text = some (i, e)) :
    e = text.length ∨ (e + 1 = text.length ∧ text.data[e]? = some '\n') := by
  unfold ReM.reSearch at hs
  obtain ⟨j, hj, hfj⟩ := List.exists_of_findSome?_eq_some hs
  cases hh : (ReM.ends r text.data j).head? with
  | none => rw [hh] at hfj; simp at hfj
  | some e2 =>
    rw [hh] at hfj
    have hje : j = i ∧ e2 = e := by
      constructor <;> [exact congrArg Prod.fst (Option.some.inj hfj);
        exact congrArg Prod.snd (Option.some.inj hfj)]
    have hmem : e ∈ ReM.ends r text.data j := by
      rw [← hje.2]
      exact List.mem_of_mem_head? hh
    have := ends_suffixShaped r text.data hshape j e hmem
    have hlen : text.length = text.data.length := rfl
    rw [hlen]
    exact this

/-- C6 counterexample to the claim as stated: for the suffix list `["a"]`
and the text `"a\n"`, the compiled matcher returns the span `(0, 1)`,
which does not end at the end of the text (position 2): Python's `$`
matches just before a terminating newline. -/
theorem compile_suffix_matches_before_final_newline :
    SpacyUtil.suffixSearch ["a"] "a\n" = some (0, 1) ∧ ("a\n").length = 2 ∧
    SpacyUtil.suffixSearch ["a"] "a\n" ≠ some (0, 2) := by
  refine ⟨by decide, by decide, by decide⟩

/-- Witness for `compile_suffix_end_anchored` at the repository's own
suffix rule `(?<=[0-9])\+`: the compiled pattern is `(?<=[0-9])\+$` and
the match `(1, 2)` found on `"3+"` ends at the end of the text. -/
theorem compile_suffix_end_anchored_witness :
    SpacyUtil.compile_suffix_regex ["(?<=[0-9])\\+"] = .ok SpacyUtil.lbPlusRE ∧
    ReM.suffixShaped SpacyUtil.lbPlusRE = true ∧
    ReM.reSearch SpacyUtil.lbPlusRE "3+" = some (1, 2) ∧
    (2 = "3+".length ∨ (2 + 1 = "3+".length ∧ "3+".data[2]? = some '\n')) :=
  ⟨by rfl, by decide, by decide,
    compile_suffix_end_anchored ["(?<=[0-9])\\+"] SpacyUtil.lbPlusRE "3+" 1 2
      (by rfl) (by decide) (by decide)⟩

/-! Lemmas for error behaviour and totality of the compiled matchers (C7). -/

theorem starEnds_mem_le (g : Nat → List Nat) (L : Nat)
    (hg : ∀ i, i ≤ L → ∀ e ∈ g i, i ≤ e ∧ e ≤ L) :
    ∀ fuel i, i ≤ L → ∀ e ∈ ReM.starEnds g fuel i, i ≤ e ∧ e ≤ L := by
  intro fuel
  induction fuel with
  | zero =>
    intro i hi e he
    have : e = i := by simpa [ReM.starEnds] using he
    subst this
    exact ⟨Nat.le_refl _, hi⟩
  | succ fuel ih =>
    intro i hi e he
    rw [ReM.starEnds] at he
    rcases List.mem_append.mp he with hmem | hmem
    · obtain ⟨m, hm, he2⟩ := List.mem_flatMap.mp hmem
      have hmle := hg i hi m hm
      by_cases him : i < m
      · rw [if_pos him] at he2
        have := ih m hmle.2 e he2
        exact ⟨Nat.le_trans hmle.1 this.1, this.2⟩
      · rw [if_neg him] at he2
        simp at he2
    · have : e = i := by simpa using hmem
      subst this
      exact ⟨Nat.le_refl _, hi⟩

theorem ends_mem_le (r : ReM.RE) (s : List Char) :
    ∀ i, i ≤ s.length → ∀ e ∈ ReM.ends r s i, i ≤ e ∧ e ≤ s.length := by
  induction r with
  | eps =>
    intro i hi e he
    have : e = i := by simpa [ReM.ends] using he
    subst this; exact ⟨Nat.le_refl _, hi⟩
  | ch c =>
    intro i hi e he
    rw [ReM.ends] at he
    cases h : s[i]? with
    | none => rw [h] at he; simp at he
    | some d =>
      rw [h] at he
      have he2 : e ∈ (if d = c then [i+1] else ([] : List Nat)) := he
      by_cases hd : d = c
      · rw [if_pos hd] at he2
        have : e = i + 1 := by simpa using he2
        subst this
        exact ⟨Nat.le_succ _, (List.getElem?_eq_some_iff.mp h).1⟩
      · rw [if_neg hd] at he2; simp at he2
  | dot =>
    intro i hi e he
    rw [ReM.ends] at he
    cases h : s[i]? with
    | none => rw [h] at he; simp at he
    | some d =>
      rw [h] at he
      have he2 : e ∈ (if d = '\n' then ([] : List Nat) else [i+1]) := he
      by_cases hd : d = '\n'
      · rw [if_pos hd] at he2; simp at he2
      · rw [if_neg hd] at he2
        have : e = i + 1 := by simpa using he2
        subst this
        exact ⟨Nat.le_succ _, (List.getElem?_eq_some_iff.mp h).1⟩
  | cls neg items =>
    intro i hi e he
    rw [ReM.ends] at he
    cases h : s[i]? with
    | none => rw [h] at he; simp at he
    | some d =>
      rw [h] at he
      have he2 : e ∈ (if ReM.clsMatch neg items d then [i+1] else ([] : List Nat)) := he
      by_cases hd : ReM.clsMatch neg items d = true
      · rw [if_pos hd] at he2
        have : e = i + 1 := by simpa using he2
        subst this
        exact ⟨Nat.le_succ _, (List.getElem?_eq_some_iff.mp h).1⟩
      · rw [if_neg hd] at he2; simp at he2
  | seq a b iha ihb =>
    intro i hi e he
    rw [show ReM.ends (.seq a b) s i
        = (ReM.ends a s i).flatMap (fun e => ReM.ends b s e) from by rw [ReM.ends]] at he
    obtain ⟨m, hm, he2⟩ := List.mem_flatMap.mp he
    have h1 := iha i hi m hm
    have h2 := ihb m h1.2 e he2
    exact ⟨Nat.le_trans h1.1 h2.1, h2.2⟩
  | alt a b iha ihb =>
    intro i hi e he
    rw [ends_alt] at he
    rcases List.mem_append.mp he with hmem | hmem
    · exact iha i hi e hmem
    · exact ihb i hi e hmem
  | star a iha =>
    intro i hi e he
    rw [show ReM.ends (.star a) s i
        = ReM.starEnds (fun j => ReM.ends a s j) (s.length + 1) i from by rw [ReM.ends]] at he
    exact starEnds_mem_le _ s.length iha (s.length + 1) i hi e he
  | bol =>
    intro i hi e he
    rw [ReM.ends] at he
    by_cases h0 : i = 0
    · rw [if_pos h0] at he
      have : e = i := by simpa using he
      subst this; exact ⟨Nat.le_refl _, hi⟩
    · rw [if_neg h0] at he; simp at he
  | eol =>
    intro i hi e he
    rw [ReM.ends] at he
    by_cases h0 : i = s.length ∨ (i + 1 = s.length ∧ s[i]? = some '\n')
    · rw [if_pos h0] at he
      have : e = i := by simpa using he
      subst this; exact ⟨Nat.le_refl _, hi⟩
    · rw [if_neg h0] at he; simp at he
  | look behind neg a iha =>
    intro i hi e he
    cases behind with
    | false =>
      cases neg with
      | false =>
        rw [show ReM.ends (.look false false a) s i
            = (if (ReM.ends a s i).isEmpty then [] else [i]) from by rw [ReM.ends]] at he
        by_cases hc : (ReM.ends a s i).isEmpty = true
        · rw [if_pos hc] at he
          simp at he
        · rw [if_neg hc] at he
          have : e = i := by simpa using he
          subst this
          exact ⟨Nat.le_refl _, hi⟩
      | true =>
        rw [show ReM.ends (.look false true a) s i
            = (if (ReM.ends a s i).isEmpty then [i] else []) from by rw [ReM.ends]] at he
        by_cases hc : (ReM.ends a s i).isEmpty = true
        · rw [if_pos hc] at he
          have : e = i := by simpa using he
          subst this
          exact ⟨Nat.le_refl _, hi⟩
        · rw [if_neg hc] at he
          simp at he
    | true =>
      cases neg with
      | false =>
        rw [show ReM.ends (.look true false a) s i
            = (if (List.range (i+1)).any (fun j => (ReM.ends a s j).contains i)
               then [i] else []) from by rw [ReM.ends]] at he
        by_cases hc : ((List.range (i+1)).any
            (fun j => (ReM.ends a s j).contains i)) = true
        · rw [if_pos hc] at he
          have : e = i := by simpa using he
          subst this
          exact ⟨Nat.le_refl _, hi⟩
        · rw [if_neg hc] at he
          simp at he
      | true =>
        rw [show ReM.ends (.look true true a) s i
            = (if (List.range (i+1)).any (fun j => (ReM.ends a s j).contains i)
               then [] else [i]) from by rw [ReM.ends]] at he
        by_cases hc : ((List.range (i+1)).any
            (fun j => (ReM.ends a s j).contains i)) = true
        · rw [if_pos hc] at he
          simp at he
        · rw [if_neg hc] at he
          have : e = i := by simpa using he
          subst this
          exact ⟨Nat.le_refl _, hi⟩

/-- C7 (amended): `compile_suffix_regex` and `compile_infix_regex` raise at
configuration time exactly when the JOINED alternation expression is
malformed — an individually malformed fragment does not by itself force an
error, because fragments are joined textually with `|` and a later
fragment can complete an earlier one into a well-formed pattern; once
compilation succeeds the matcher is a total function and every span it
returns lies within the text. -/
theorem compile_affix_error_iff (entries : List String) :
    ((∃ err, SpacyUtil.compile_suffix_regex entries = .error err) ↔
        ReM.parseRE (SpacyUtil.suffixPattern entries) = none) ∧
    ((∃ err, SpacyUtil.compile_infix_regex entries = .error err) ↔
        ReM.parseRE (SpacyUtil.infixPattern entries) = none) ∧
    (∀ r text i e, (SpacyUtil.compile_suffix_regex entries = .ok r ∨
        SpacyUtil.compile_infix_regex entries = .ok r) →
      ReM.reSearch r text = some (i, e) → i ≤ e ∧ e ≤ text.length) := by
  refine ⟨?_, ?_, ?_⟩
  · unfold SpacyUtil.compile_suffix_regex
    cases h : ReM.parseRE (SpacyUtil.suffixPattern entries) with
    | some r => simp
    | none => simp
  · unfold SpacyUtil.compile_infix_regex
    cases h : ReM.parseRE (SpacyUtil.infixPattern entries) with
    | some r => simp
    | none => simp
  · intro r text i e _ hs
    unfold ReM.reSearch at hs
    obtain ⟨j, hj, hfj⟩ := List.exists_of_findSome?_eq_some hs
    cases hh : (ReM.ends r text.data j).head? with
    | none => rw [hh] at hfj; simp at hfj
    | some e2 =>
      rw [hh] at hfj
      have hje : j = i ∧ e2 = e := by
        constructor <;> [exact congrArg Prod.fst (Option.some.inj hfj);
          exact congrArg Prod.snd (Option.some.inj hfj)]
      have hmem : e ∈ ReM.ends r text.data j := by
        rw [← hje.2]
        exact List.mem_of_mem_head? hh
      have hjle : j ≤ text.data.length := Nat.lt_succ_iff.mp (List.mem_range.mp hj)
      have := ends_mem_le r text.data j hjle e hmem
      rw [← hje.1]
      exact this

/-- C7 counterexample to the claim as stated: the fragments `"(a"` and
`"b)"` are each malformed as regular expressions (in Python,
`re.compile("(a")` raises "missing ), unterminated subpattern"), and
`compile_suffix_regex ["(a"]` does raise — but joining both fragments
yields the well-formed pattern `(a$|b)$`, so
`compile_suffix_regex ["(a", "b)"]` (and the infix analogue) raises no
error even though malformed fragments are present. -/
theorem malformed_fragment_compiles :
    ReM.parseRE "(a" = none ∧ ReM.parseRE "b)" = none ∧
    SpacyUtil.compile_suffix_regex ["(a"] = .error () ∧
    (SpacyUtil.compile_suffix_regex ["(a", "b)"]).isOk = true ∧
    (SpacyUtil.compile_infix_regex ["(a", "b)"]).isOk = true := by
  refine ⟨by decide, by decide, by rfl, by decide, by decide⟩

/-- Witness for `compile_affix_error_iff` at the repository's own suffix
rule `(?<=[0-9])\+`: compilation succeeds with the joined pattern
`(?<=[0-9])\+$` (a lookbehind, an escaped plus and the anchor), and the
span found on `"3+"` is within bounds. -/
theorem compile_affix_error_iff_witness :
    (SpacyUtil.compile_suffix_regex ["(?<=[0-9])\\+"] = .ok SpacyUtil.lbPlusRE ∨
      SpacyUtil.compile_infix_regex ["(?<=[0-9])\\+"] = .ok SpacyUtil.lbPlusRE) ∧
    ReM.reSearch SpacyUtil.lbPlusRE "3+" = some (1, 2) ∧
    (1 ≤ 2 ∧ 2 ≤ "3+".length) :=
  ⟨Or.inl (by rfl), by decide,
    (compile_affix_error_iff ["(?<=[0-9])\\+"]).2.2 SpacyUtil.lbPlusRE "3+" 1 2
      (Or.inl (by rfl)) (by decide)⟩

/-! Dict lemmas for `update_exc` / `expand_exc` (C2, C8). -/

theorem dlookup_cons {α : Type} (k2 : String) (v2 : α) (rest : List (String × α))
    (k : String) :
    SpacyUtil.dlookup ((k2, v2) :: rest) k =
      if k2 = k then some v2 else SpacyUtil.dlookup rest k := by
  by_cases h : k2 = k
  · simp [SpacyUtil.dlookup, List.find?_cons_of_pos, h]
  · rw [if_neg h]
    unfold SpacyUtil.dlookup
    rw [List.find?_cons_of_neg _ (by simpa using h)]

theorem dlookup_dinsert {α : Type} (d : List (String × α)) (k : String) (v : α)
    (k2 : String) :
    SpacyUtil.dlookup (SpacyUtil.dinsert d k v) k2 =
      if k = k2 then some v else SpacyUtil.dlookup d k2 := by
  induction d with
  | nil => simp [SpacyUtil.dinsert, dlookup_cons, SpacyUtil.dlookup]
  | cons kv rest ih =>
    obtain ⟨k1, v1⟩ := kv
    by_cases h1 : k1 = k
    · subst h1
      rw [show SpacyUtil.dinsert ((k1, v1) :: rest) k1 v = (k1, v) :: rest from by
        simp [SpacyUtil.dinsert]]
      rw [dlookup_cons, dlookup_cons]
      by_cases h2 : k1 = k2 <;> simp [h2]
    · rw [show SpacyUtil.dinsert ((k1, v1) :: rest) k v
          = (k1, v1) :: SpacyUtil.dinsert rest k v from by simp [SpacyUtil.dinsert, h1]]
      rw [dlookup_cons, ih, dlookup_cons]
      by_cases h2 : k1 = k2
      · have hk : ¬ k = k2 := fun hh => h1 (h2.trans hh.symm)
        rw [if_pos h2, if_neg hk, if_pos h2]
      · simp [h2]

theorem dlookup_eq_none_of_not_mem {α : Type} (d : List (String × α)) (k : String)
    (h : k ∉ d.map Prod.fst) : SpacyUtil.dlookup d k = none := by
  induction d with
  | nil => rfl
  | cons kv rest ih =>
    rw [show kv = (kv.1, kv.2) from rfl, dlookup_cons]
    rw [if_neg (by simp at h; exact fun hh => h.1 hh.symm)]
    exact ih (by simp at h ⊢; exact h.2)

theorem dlookup_some_mem {α : Type} (d : List (String × α)) (k : String) (v : α)
    (h : SpacyUtil.dlookup d k = some v) : (k, v) ∈ d := by
  induction d with
  | nil => simp [SpacyUtil.dlookup] at h
  | cons kv rest ih =>
    rw [show kv = (kv.1, kv.2) from rfl, dlookup_cons] at h
    by_cases h1 : kv.1 = k
    · rw [if_pos h1] at h
      have h2 : kv.2 = v := by simpa using h
      have : (k, v) = kv := by
        rw [← h1, ← h2]
      rw [this]
      exact List.mem_cons_self _ _
    · rw [if_neg h1] at h
      exact List.mem_cons_of_mem _ (ih h)

theorem dlookup_dmerge {α : Type} (d e : List (String × α))
    (he : (e.map Prod.fst).Nodup) (k : String) :
    SpacyUtil.dlookup (SpacyUtil.dmerge d e) k =
      (SpacyUtil.dlookup e k).or (SpacyUtil.dlookup d k) := by
  induction e generalizing d with
  | nil => simp [SpacyUtil.dmerge, SpacyUtil.dlookup]
  | cons kv rest ih =>
    obtain ⟨k1, v1⟩ := kv
    have hrest : (rest.map Prod.fst).Nodup := (List.nodup_cons.mp he).2
    have hnotin : k1 ∉ rest.map Prod.fst := (List.nodup_cons.mp he).1
    rw [show SpacyUtil.dmerge d ((k1, v1) :: rest)
        = SpacyUtil.dmerge (SpacyUtil.dinsert d k1 v1) rest from rfl]
    rw [ih _ hrest, dlookup_cons, dlookup_dinsert]
    by_cases h1 : k1 = k
    · subst h1
      rw [dlookup_eq_none_of_not_mem rest k1 hnotin]
      simp
    · simp [h1]

theorem dlookup_dmergeAll (base : SpacyUtil.ExcTable) (adds : List SpacyUtil.ExcTable)
    (hnd : ∀ t ∈ adds, (t.map Prod.fst).Nodup) (k : String) :
    SpacyUtil.dlookup (SpacyUtil.dmergeAll base adds) k =
      (adds.reverse.findSome? (fun t => SpacyUtil.dlookup t k)).or
        (SpacyUtil.dlookup base k) := by
  induction adds generalizing base with
  | nil => simp [SpacyUtil.dmergeAll]
  | cons t rest ih =>
    have ht : (t.map Prod.fst).Nodup := hnd t (List.mem_cons_self t rest)
    have hrest : ∀ u ∈ rest, (u.map Prod.fst).Nodup :=
      fun u hu => hnd u (List.mem_cons_of_mem _ hu)
    rw [show SpacyUtil.dmergeAll base (t :: rest)
        = SpacyUtil.dmergeAll (SpacyUtil.dmerge base t) rest from rfl]
    rw [ih _ hrest, dlookup_dmerge _ _ ht]
    rw [show (t :: rest).reverse = rest.reverse ++ [t] from by simp]
    rw [List.findSome?_append]
    rw [show List.findSome? (fun u => SpacyUtil.dlookup u k) [t]
        = SpacyUtil.dlookup t k from by
      cases hh : SpacyUtil.dlookup t k <;> simp [List.findSome?_cons, hh]]
    rw [Option.or_assoc]

theorem checkEntry_ok_iff (k : String) (toks : List SpacyUtil.Tok) :
    SpacyUtil.checkEntry k toks = .ok () ↔
      (toks.all SpacyUtil.orthIsStr = true ∧ k = SpacyUtil.joinOrths toks) := by
  unfold SpacyUtil.checkEntry
  by_cases h1 : toks.all SpacyUtil.orthIsStr = true
  · rw [if_neg (by simpa using h1)]
    by_cases h2 : k = SpacyUtil.joinOrths toks
    · rw [if_neg (by simpa using h2)]
      simp [h1, h2]
    · rw [if_pos h2]
      simp [h2]
  · rw [if_pos (by simpa using h1)]
    simp [h1]

theorem checkTable_ok_iff (t : SpacyUtil.ExcTable) :
    SpacyUtil.checkTable t = .ok () ↔
      ∀ kv ∈ t, (kv.2.all SpacyUtil.orthIsStr = true ∧ kv.1 = SpacyUtil.joinOrths kv.2) := by
  induction t with
  | nil => simp [SpacyUtil.checkTable]
  | cons kv rest ih =>
    obtain ⟨k, toks⟩ := kv
    cases hc : SpacyUtil.checkEntry k toks with
    | error e =>
      have heq : SpacyUtil.checkTable ((k, toks) :: rest) = .error e := by
        show (SpacyUtil.checkEntry k toks >>= fun _ => SpacyUtil.checkTable rest) = _
        rw [hc]
        rfl
      rw [heq]
      constructor
      · intro h; simp at h
      · intro h
        have hgood := h (k, toks) (List.mem_cons_self _ _)
        have hok := (checkEntry_ok_iff k toks).mpr hgood
        rw [hok] at hc
        simp at hc
    | ok u =>
      obtain ⟨⟩ := u
      have heq : SpacyUtil.checkTable ((k, toks) :: rest) = SpacyUtil.checkTable rest := by
        show (SpacyUtil.checkEntry k toks >>= fun _ => SpacyUtil.checkTable rest) = _
        rw [hc]
        rfl
      rw [heq, ih]
      constructor
      · intro h kv hkv
        rcases List.mem_cons.mp hkv with rfl | hmem
        · exact (checkEntry_ok_iff _ _).mp hc
        · exact h kv hmem
      · intro h kv hkv
        exact h kv (List.mem_cons_of_mem _ hkv)

theorem update_exc_go_ok (exc : SpacyUtil.ExcTable) (adds : List SpacyUtil.ExcTable)
    (h : ∀ t ∈ adds, SpacyUtil.checkTable t = .ok ()) :
    SpacyUtil.update_exc_go exc adds = .ok (adds.foldl SpacyUtil.dmerge exc) := by
  induction adds generalizing exc with
  | nil => rfl
  | cons t rest ih =>
    have ht : SpacyUtil.checkTable t = .ok () := h t (List.mem_cons_self _ _)
    have heq : SpacyUtil.update_exc_go exc (t :: rest)
        = SpacyUtil.update_exc_go (SpacyUtil.dmerge exc t) rest := by
      show (SpacyUtil.checkTable t >>= fun _ =>
        SpacyUtil.update_exc_go (SpacyUtil.dmerge exc t) rest) = _
      rw [ht]
      rfl
    rw [heq]
    exact ih _ (fun u hu => h u (List.mem_cons_of_mem _ hu))

theorem update_exc_go_error_iff (exc : SpacyUtil.ExcTable)
    (adds : List SpacyUtil.ExcTable) :
    (∃ e, SpacyUtil.update_exc_go exc adds = .error e) ↔
      ∃ t ∈ adds, SpacyUtil.checkTable t ≠ .ok () := by
  induction adds generalizing exc with
  | nil => simp [SpacyUtil.update_exc_go]
  | cons t rest ih =>
    cases hc : SpacyUtil.checkTable t with
    | error e =>
      have heq : SpacyUtil.update_exc_go exc (t :: rest) = .error e := by
        show (SpacyUtil.checkTable t >>= fun _ =>
          SpacyUtil.update_exc_go (SpacyUtil.dmerge exc t) rest) = _
        rw [hc]
        rfl
      rw [heq]
      constructor
      · intro _
        exact ⟨t, List.mem_cons_self _ _, by rw [hc]; intro hcc; simp at hcc⟩
      · intro _
        exact ⟨e, rfl⟩
    | ok u =>
      obtain ⟨⟩ := u
      have heq : SpacyUtil.update_exc_go exc (t :: rest)
          = SpacyUtil.update_exc_go (SpacyUtil.dmerge exc t) rest := by
        show (SpacyUtil.checkTable t >>= fun _ =>
          SpacyUtil.update_exc_go (SpacyUtil.dmerge exc t) rest) = _
        rw [hc]
        rfl
      rw [heq, ih]
      constructor
      · intro ⟨u2, hu2, hbad⟩
        exact ⟨u2, List.mem_cons_of_mem _ hu2, hbad⟩
      · intro ⟨u2, hu2, hbad⟩
        rcases List.mem_cons.mp hu2 with rfl | hmem
        · exact absurd hc hbad
        · exact ⟨u2, hmem, hbad⟩

/-- C2 counterexample to the claim as stated: both entries of the addition
pass validation, so `update_exc` succeeds — but the table it returns does
NOT map the key `a’b` to what the (only, hence last) addition said:
the apostrophe expansion of the other key `a'b` also lands on `a’b` and
overwrites that entry.  And with NO addition at all (so no addition entry
violates anything), a base entry with an apostrophe key and a non-string
sub-token ORTH makes `update_exc` raise `AttributeError` out of
`_fix_token` instead of returning the combined table. -/
theorem update_exc_overwrites_addition_entry :
    SpacyUtil.update_exc [] [SpacyUtil.cexAdd] = .ok SpacyUtil.cexResult ∧
    SpacyUtil.dlookup SpacyUtil.cexAdd SpacyUtil.keyTyp =
      some [⟨.str SpacyUtil.keyTypA, none⟩, ⟨.str "b", none⟩] ∧
    SpacyUtil.dlookup SpacyUtil.cexResult SpacyUtil.keyTyp =
      some [⟨.str SpacyUtil.keyTyp, none⟩] ∧
    some [(⟨.str SpacyUtil.keyTyp, none⟩ : SpacyUtil.Tok)] ≠
      some [⟨.str SpacyUtil.keyTypA, none⟩, ⟨.str "b", none⟩] ∧
    SpacyUtil.update_exc SpacyUtil.cexBadBase [] = .error "AttributeError" := by
  refine ⟨by rfl, by rfl, by rfl, by decide, by rfl⟩

/-! Lemmas on the apostrophe substitution and the expansion fold (C8). -/

theorem fixToken_eq_some (search repl : String) (t : SpacyUtil.Tok)
    (h : SpacyUtil.orthIsStr t = true) :
    SpacyUtil.fixToken search repl t = some (SpacyUtil.fixTokenT search repl t) := by
  cases t with
  | mk orth norm =>
    cases orth with
    | str s => rfl
    | nonStr tag => exact absurd h (by simp [SpacyUtil.orthIsStr])

theorem fixToken_eq_none (search repl : String) (t : SpacyUtil.Tok)
    (h : SpacyUtil.orthIsStr t = false) :
    SpacyUtil.fixToken search repl t = none := by
  cases t with
  | mk orth norm =>
    cases orth with
    | str s => exact absurd h (by simp [SpacyUtil.orthIsStr])
    | nonStr tag => rfl

theorem fixTokens_eq_map (search repl : String) (ts : List SpacyUtil.Tok)
    (h : ts.all SpacyUtil.orthIsStr = true) :
    SpacyUtil.fixTokens search repl ts =
      some (ts.map (SpacyUtil.fixTokenT search repl)) := by
  induction ts with
  | nil => rfl
  | cons t ts ih =>
    simp only [List.all_cons, Bool.and_eq_true] at h
    show (SpacyUtil.fixToken search repl t >>= fun u =>
        SpacyUtil.fixTokens search repl ts >>= fun us => some (u :: us)) = _
    rw [fixToken_eq_some search repl t h.1, ih h.2]
    rfl

theorem fixTokens_eq_none (search repl : String) (ts : List SpacyUtil.Tok)
    (h : ts.all SpacyUtil.orthIsStr = false) :
    SpacyUtil.fixTokens search repl ts = none := by
  induction ts with
  | nil => simp at h
  | cons t ts ih =>
    show (SpacyUtil.fixToken search repl t >>= fun u =>
        SpacyUtil.fixTokens search repl ts >>= fun us => some (u :: us)) = none
    by_cases hstr : SpacyUtil.orthIsStr t = true
    · have hts : ts.all SpacyUtil.orthIsStr = false := by
        simp only [List.all_cons, hstr, Bool.true_and] at h
        exact h
      rw [fixToken_eq_some search repl t hstr, ih hts]
      rfl
    · rw [fixToken_eq_none search repl t (Bool.eq_false_iff.mpr hstr)]
      rfl

theorem expandE_foldl_error_absorb (search repl : String)
    (l : SpacyUtil.ExcTable) (e : String) :
    l.foldl (SpacyUtil.expandStepE search repl) (.error e) = .error e := by
  induction l with
  | nil => rfl
  | cons kv rest ih => exact ih

theorem expandE_foldl_ok (l : SpacyUtil.ExcTable) :
    ∀ d : SpacyUtil.ExcTable,
      (∀ kv ∈ l, SpacyUtil.pyContains kv.1 SpacyUtil.apos = true →
        kv.2.all SpacyUtil.orthIsStr = true) →
      l.foldl (SpacyUtil.expandStepE SpacyUtil.apos SpacyUtil.typoApos) (.ok d) =
        .ok (l.foldl SpacyUtil.expandStep d) := by
  induction l with
  | nil => intro d _; rfl
  | cons kv rest ih =>
    intro d hsafe
    have hstep : SpacyUtil.expandStepE SpacyUtil.apos SpacyUtil.typoApos (.ok d) kv
        = .ok (SpacyUtil.expandStep d kv) := by
      show (if SpacyUtil.pyContains kv.1 SpacyUtil.apos = true then
          match SpacyUtil.fixTokens SpacyUtil.apos SpacyUtil.typoApos kv.2 with
          | some vs => Except.ok (SpacyUtil.dinsert d
              (SpacyUtil.pyReplace kv.1 SpacyUtil.apos SpacyUtil.typoApos) vs)
          | none => Except.error "AttributeError"
        else Except.ok d) = .ok (SpacyUtil.expandStep d kv)
      unfold SpacyUtil.expandStep
      by_cases hcon : SpacyUtil.pyContains kv.1 SpacyUtil.apos = true
      · rw [if_pos hcon, if_pos hcon,
          fixTokens_eq_map _ _ kv.2 (hsafe kv (List.mem_cons_self _ _) hcon)]
      · rw [if_neg hcon, if_neg hcon]
    show rest.foldl (SpacyUtil.expandStepE SpacyUtil.apos SpacyUtil.typoApos)
        (SpacyUtil.expandStepE SpacyUtil.apos SpacyUtil.typoApos (.ok d) kv)
      = .ok ((kv :: rest).foldl SpacyUtil.expandStep d)
    rw [hstep]
    exact ih _ (fun u hu hc => hsafe u (List.mem_cons_of_mem _ hu) hc)

theorem expandE_foldl_error_of_bad (l : SpacyUtil.ExcTable) :
    ∀ acc : Except String SpacyUtil.ExcTable,
      (∃ kv ∈ l, SpacyUtil.pyContains kv.1 SpacyUtil.apos = true ∧
        kv.2.all SpacyUtil.orthIsStr = false) →
      ∃ e, l.foldl (SpacyUtil.expandStepE SpacyUtil.apos SpacyUtil.typoApos) acc
        = .error e := by
  induction l with
  | nil =>
    intro acc h
    obtain ⟨kv, hm, _⟩ := h
    cases hm
  | cons kv1 rest ih =>
    intro acc h
    obtain ⟨kv, hm, hcon, hbad⟩ := h
    rcases List.mem_cons.mp hm with heq | hmem
    · cases acc with
      | error e =>
        refine ⟨e, ?_⟩
        show rest.foldl (SpacyUtil.expandStepE SpacyUtil.apos SpacyUtil.typoApos)
            (SpacyUtil.expandStepE SpacyUtil.apos SpacyUtil.typoApos (.error e) kv1)
          = .error e
        exact expandE_foldl_error_absorb SpacyUtil.apos SpacyUtil.typoApos rest e
      | ok d =>
        have hstep : SpacyUtil.expandStepE SpacyUtil.apos SpacyUtil.typoApos (.ok d) kv1
            = .error "AttributeError" := by
          show (if SpacyUtil.pyContains kv1.1 SpacyUtil.apos = true then
              match SpacyUtil.fixTokens SpacyUtil.apos SpacyUtil.typoApos kv1.2 with
              | some vs => Except.ok (SpacyUtil.dinsert d
                  (SpacyUtil.pyReplace kv1.1 SpacyUtil.apos SpacyUtil.typoApos) vs)
              | none => Except.error "AttributeError"
            else Except.ok d) = .error "AttributeError"
          rw [if_pos (heq ▸ hcon), fixTokens_eq_none _ _ kv1.2 (heq ▸ hbad)]
        refine ⟨"AttributeError", ?_⟩
        show rest.foldl (SpacyUtil.expandStepE SpacyUtil.apos SpacyUtil.typoApos)
            (SpacyUtil.expandStepE SpacyUtil.apos SpacyUtil.typoApos (.ok d) kv1)
          = .error "AttributeError"
        rw [hstep]
        exact expandE_foldl_error_absorb SpacyUtil.apos SpacyUtil.typoApos rest _
    · exact ih (SpacyUtil.expandStepE SpacyUtil.apos SpacyUtil.typoApos acc kv1)
        ⟨kv, hmem, hcon, hbad⟩

theorem expand_exc_ok_iff (excs tbl : SpacyUtil.ExcTable) :
    SpacyUtil.expand_exc excs SpacyUtil.apos SpacyUtil.typoApos = .ok tbl ↔
      ((∀ kv ∈ excs, SpacyUtil.pyContains kv.1 SpacyUtil.apos = true →
          kv.2.all SpacyUtil.orthIsStr = true) ∧
        tbl = excs.foldl SpacyUtil.expandStep excs) := by
  constructor
  · intro h
    have hsafe : ∀ kv ∈ excs, SpacyUtil.pyContains kv.1 SpacyUtil.apos = true →
        kv.2.all SpacyUtil.orthIsStr = true := by
      by_contra hno
      push_neg at hno
      obtain ⟨kv, hm, hcon, hns⟩ := hno
      have hbad : kv.2.all SpacyUtil.orthIsStr = false := by
        cases hx : kv.2.all SpacyUtil.orthIsStr
        · rfl
        · exact absurd hx hns
      obtain ⟨e, he⟩ := expandE_foldl_error_of_bad excs (.ok excs) ⟨kv, hm, hcon, hbad⟩
      rw [show SpacyUtil.expand_exc excs SpacyUtil.apos SpacyUtil.typoApos
          = excs.foldl (SpacyUtil.expandStepE SpacyUtil.apos SpacyUtil.typoApos)
            (.ok excs) from rfl, he] at h
      cases h
    refine ⟨hsafe, ?_⟩
    rw [show SpacyUtil.expand_exc excs SpacyUtil.apos SpacyUtil.typoApos
        = excs.foldl (SpacyUtil.expandStepE SpacyUtil.apos SpacyUtil.typoApos)
          (.ok excs) from rfl, expandE_foldl_ok excs excs hsafe] at h
    exact (Except.ok.inj h).symm
  · intro h
    obtain ⟨hsafe, htbl⟩ := h
    rw [show SpacyUtil.expand_exc excs SpacyUtil.apos SpacyUtil.typoApos
        = excs.foldl (SpacyUtil.expandStepE SpacyUtil.apos SpacyUtil.typoApos)
          (.ok excs) from rfl, expandE_foldl_ok excs excs hsafe, htbl]

theorem expand_exc_error_iff (excs : SpacyUtil.ExcTable) :
    (∃ e, SpacyUtil.expand_exc excs SpacyUtil.apos SpacyUtil.typoApos = .error e) ↔
      ∃ kv ∈ excs, SpacyUtil.pyContains kv.1 SpacyUtil.apos = true ∧
        kv.2.all SpacyUtil.orthIsStr = false := by
  constructor
  · intro h
    obtain ⟨e, he⟩ := h
    by_contra hno
    push_neg at hno
    have hsafe : ∀ kv ∈ excs, SpacyUtil.pyContains kv.1 SpacyUtil.apos = true →
        kv.2.all SpacyUtil.orthIsStr = true := by
      intro kv hm hc
      cases hx : kv.2.all SpacyUtil.orthIsStr
      · exact absurd hx (hno kv hm hc)
      · rfl
    rw [show SpacyUtil.expand_exc excs SpacyUtil.apos SpacyUtil.typoApos
        = excs.foldl (SpacyUtil.expandStepE SpacyUtil.apos SpacyUtil.typoApos)
          (.ok excs) from rfl, expandE_foldl_ok excs excs hsafe] at he
    cases he
  · intro hbad
    exact expandE_foldl_error_of_bad excs (.ok excs) hbad

theorem replaceLF_singleton (c : Char) (r l : List Char) :
    ∀ fuel, l.length ≤ fuel →
      SpacyUtil.replaceLF fuel [c] r l =
        l.flatMap (fun x => if x = c then r else [x]) := by
  induction l with
  | nil =>
    intro fuel _
    cases fuel <;> simp [SpacyUtil.replaceLF]
  | cons c2 rest ih =>
    intro fuel hlen
    cases fuel with
    | zero => simp at hlen
    | succ f =>
      rw [SpacyUtil.replaceLF]
      by_cases hc : c = c2
      · rw [if_pos ⟨by simp, by simp [List.isPrefixOf, hc]⟩]
        rw [show ((c2 :: rest).drop ([c].length)) = rest from by simp]
        rw [ih f (by simpa using hlen)]
        simp [hc.symm]
      · rw [if_neg (by
          intro ⟨_, hpre⟩
          simp [List.isPrefixOf] at hpre
          exact hc hpre)]
        rw [ih f (by simpa using hlen)]
        rw [show (c2 :: rest).flatMap (fun x => if x = c then r else [x])
            = (if c2 = c then r else [c2]) ++
              rest.flatMap (fun x => if x = c then r else [x]) from by
          rw [List.flatMap_cons]]
        rw [if_neg (fun hh => hc hh.symm)]
        rfl

theorem pyReplace_apos (s : String) :
    SpacyUtil.pyReplace s SpacyUtil.apos SpacyUtil.typoApos =
      String.mk (SpacyUtil.substApos s.data) := by
  unfold SpacyUtil.pyReplace SpacyUtil.substApos
  rw [show SpacyUtil.apos.data = [Char.ofNat 39] from rfl]
  rw [replaceLF_singleton _ _ _ _ (Nat.le_refl _)]
  rfl

theorem substApos_append (a b : List Char) :
    SpacyUtil.substApos (a ++ b) = SpacyUtil.substApos a ++ SpacyUtil.substApos b := by
  unfold SpacyUtil.substApos
  exact List.flatMap_append a b _

theorem containsL_singleton (c : Char) (l : List Char) :
    SpacyUtil.containsL [c] l = true ↔ c ∈ l := by
  induction l with
  | nil => simp [SpacyUtil.containsL, List.isEmpty]
  | cons c2 rest ih =>
    rw [SpacyUtil.containsL]
    constructor
    · intro h
      rcases Bool.or_eq_true_iff.mp h with hpre | hrest
      · simp [List.isPrefixOf] at hpre
        rw [hpre]
        exact List.mem_cons_self _ _
      · exact List.mem_cons_of_mem _ (ih.mp hrest)
    · intro h
      rcases List.mem_cons.mp h with rfl | hmem
      · apply Bool.or_eq_true_iff.mpr
        left
        simp [List.isPrefixOf]
      · exact Bool.or_eq_true_iff.mpr (Or.inr (ih.mpr hmem))

theorem pyContains_apos_iff (s : String) :
    SpacyUtil.pyContains s SpacyUtil.apos = true ↔ Char.ofNat 39 ∈ s.data := by
  unfold SpacyUtil.pyContains
  rw [show SpacyUtil.apos.data = [Char.ofNat 39] from rfl]
  exact containsL_singleton _ _

theorem substApos_no_apos (l : List Char) : Char.ofNat 39 ∉ SpacyUtil.substApos l := by
  intro h
  obtain ⟨x, _, hx⟩ := List.mem_flatMap.mp h
  by_cases hxc : x = Char.ofNat 39
  · rw [if_pos hxc] at hx
    have : Char.ofNat 39 = Char.ofNat 8217 := by simpa using hx
    exact absurd this (by decide)
  · rw [if_neg hxc] at hx
    have : Char.ofNat 39 = x := by simpa using hx
    exact hxc this.symm

theorem rep_no_apos (k : String) :
    SpacyUtil.pyContains (SpacyUtil.pyReplace k SpacyUtil.apos SpacyUtil.typoApos)
      SpacyUtil.apos = false := by
  rw [pyReplace_apos]
  by_contra h
  have h2 : SpacyUtil.pyContains (String.mk (SpacyUtil.substApos k.data))
      SpacyUtil.apos = true := by
    cases hh : SpacyUtil.pyContains (String.mk (SpacyUtil.substApos k.data)) SpacyUtil.apos
    · exact absurd hh h
    · rfl
  have := (pyContains_apos_iff _).mp h2
  exact substApos_no_apos _ (by simpa using this)

theorem dlookup_expandStep_isSome (acc : SpacyUtil.ExcTable)
    (kv : String × List SpacyUtil.Tok) (k : String)
    (h : (SpacyUtil.dlookup acc k).isSome) :
    (SpacyUtil.dlookup (SpacyUtil.expandStep acc kv) k).isSome := by
  unfold SpacyUtil.expandStep
  by_cases hcon : SpacyUtil.pyContains kv.1 SpacyUtil.apos = true
  · rw [if_pos hcon, dlookup_dinsert]
    by_cases hk : SpacyUtil.pyReplace kv.1 SpacyUtil.apos SpacyUtil.typoApos = k
    · rw [if_pos hk]; rfl
    · rw [if_neg hk]; exact h
  · rw [if_neg hcon]; exact h

theorem dlookup_foldl_isSome (l : SpacyUtil.ExcTable) :
    ∀ acc k, (SpacyUtil.dlookup acc k).isSome →
      (SpacyUtil.dlookup (l.foldl SpacyUtil.expandStep acc) k).isSome := by
  induction l with
  | nil => intro acc k h; exact h
  | cons kv rest ih =>
    intro acc k h
    exact ih _ k (dlookup_expandStep_isSome acc kv k h)

theorem dlookup_foldl_inv (l : SpacyUtil.ExcTable) :
    ∀ acc k v, SpacyUtil.dlookup (l.foldl SpacyUtil.expandStep acc) k = some v →
      SpacyUtil.dlookup acc k = some v ∨
        ∃ kv ∈ l, SpacyUtil.pyContains kv.1 SpacyUtil.apos = true ∧
          k = SpacyUtil.pyReplace kv.1 SpacyUtil.apos SpacyUtil.typoApos := by
  induction l with
  | nil => intro acc k v h; exact Or.inl h
  | cons kv rest ih =>
    intro acc k v h
    rcases ih _ k v h with hacc | ⟨kv2, hkv2, hc2⟩
    · unfold SpacyUtil.expandStep at hacc
      by_cases hcon : SpacyUtil.pyContains kv.1 SpacyUtil.apos = true
      · rw [if_pos hcon, dlookup_dinsert] at hacc
        by_cases hk : SpacyUtil.pyReplace kv.1 SpacyUtil.apos SpacyUtil.typoApos = k
        · exact Or.inr ⟨kv, List.mem_cons_self _ _, hcon, hk.symm⟩
        · rw [if_neg hk] at hacc
          exact Or.inl hacc
      · rw [if_neg hcon] at hacc
        exact Or.inl hacc
    · exact Or.inr ⟨kv2, List.mem_cons_of_mem _ hkv2, hc2⟩

theorem dlookup_foldl_write (l : SpacyUtil.ExcTable) :
    ∀ acc kv, kv ∈ l → SpacyUtil.pyContains kv.1 SpacyUtil.apos = true →
      (SpacyUtil.dlookup (l.foldl SpacyUtil.expandStep acc)
        (SpacyUtil.pyReplace kv.1 SpacyUtil.apos SpacyUtil.typoApos)).isSome := by
  induction l with
  | nil => intro acc kv h; simp at h
  | cons kv1 rest ih =>
    intro acc kv hmem hcon
    rcases List.mem_cons.mp hmem with rfl | hmem2
    · rw [show (kv :: rest).foldl SpacyUtil.expandStep acc
          = rest.foldl SpacyUtil.expandStep (SpacyUtil.expandStep acc kv) from rfl]
      apply dlookup_foldl_isSome
      unfold SpacyUtil.expandStep
      rw [if_pos hcon, dlookup_dinsert, if_pos rfl]
      rfl
    · exact ih _ kv hmem2 hcon

theorem dlookup_foldl_nochange (l : SpacyUtil.ExcTable) :
    ∀ acc k,
      (∀ kv ∈ l, ¬ (SpacyUtil.pyContains kv.1 SpacyUtil.apos = true ∧
        SpacyUtil.pyReplace kv.1 SpacyUtil.apos SpacyUtil.typoApos = k)) →
      SpacyUtil.dlookup (l.foldl SpacyUtil.expandStep acc) k = SpacyUtil.dlookup acc k := by
  induction l with
  | nil => intro acc k _; rfl
  | cons kv1 rest ih =>
    intro acc k hno
    rw [show (kv1 :: rest).foldl SpacyUtil.expandStep acc
        = rest.foldl SpacyUtil.expandStep (SpacyUtil.expandStep acc kv1) from rfl]
    rw [ih _ k (fun kv hkv => hno kv (List.mem_cons_of_mem _ hkv))]
    unfold SpacyUtil.expandStep
    by_cases hcon : SpacyUtil.pyContains kv1.1 SpacyUtil.apos = true
    · rw [if_pos hcon, dlookup_dinsert]
      rw [if_neg (fun hk => hno kv1 (List.mem_cons_self _ _) ⟨hcon, hk⟩)]
    · rw [if_neg hcon]

theorem dlookup_foldl_value (l : SpacyUtil.ExcTable) :
    ∀ acc k v, (k, v) ∈ l →
      SpacyUtil.pyContains k SpacyUtil.apos = true →
      (l.map Prod.fst).Nodup →
      (∀ kv ∈ l, SpacyUtil.pyReplace kv.1 SpacyUtil.apos SpacyUtil.typoApos =
          SpacyUtil.pyReplace k SpacyUtil.apos SpacyUtil.typoApos →
        SpacyUtil.pyContains kv.1 SpacyUtil.apos = true → kv.1 = k) →
      SpacyUtil.dlookup (l.foldl SpacyUtil.expandStep acc)
          (SpacyUtil.pyReplace k SpacyUtil.apos SpacyUtil.typoApos) =
        some (v.map (SpacyUtil.fixTokenT SpacyUtil.apos SpacyUtil.typoApos)) := by
  induction l with
  | nil => intro acc k v h; simp at h
  | cons kv1 rest ih =>
    intro acc k v hmem hcon hnd hinj
    have hnd2 := List.nodup_cons.mp hnd
    rcases List.mem_cons.mp hmem with heq | hmem2
    · -- the entry is processed first; afterwards, nothing else writes its key
      have hk1 : kv1 = (k, v) := heq.symm
      subst hk1
      rw [show ((k, v) :: rest).foldl SpacyUtil.expandStep acc
          = rest.foldl SpacyUtil.expandStep (SpacyUtil.expandStep acc (k, v)) from rfl]
      rw [dlookup_foldl_nochange rest _ _ ?later]
      · unfold SpacyUtil.expandStep
        rw [if_pos hcon, dlookup_dinsert, if_pos rfl]
      case later =>
        intro kv hkv ⟨hc2, hr2⟩
        have hkk : kv.1 = k := hinj kv (List.mem_cons_of_mem _ hkv) hr2 hc2
        have hmap : k ∈ rest.map Prod.fst := by
          rw [← hkk]
          exact List.mem_map_of_mem Prod.fst hkv
        exact hnd2.1 hmap
    · -- the entry is deeper in the list
      have hk1 : kv1.1 ≠ k := by
        intro hk
        have hmap : kv1.1 ∈ rest.map Prod.fst := by
          rw [hk]
          exact List.mem_map_of_mem Prod.fst hmem2
        exact hnd2.1 hmap
      exact ih _ k v hmem2 hcon hnd2.2
        (fun kv hkv => hinj kv (List.mem_cons_of_mem _ hkv))

theorem mem_dinsert {α : Type} (d : List (String × α)) (k : String) (v : α)
    (kv : String × α) (h : kv ∈ SpacyUtil.dinsert d k v) : kv = (k, v) ∨ kv ∈ d := by
  induction d with
  | nil =>
    rw [show SpacyUtil.dinsert [] k v = [(k, v)] from rfl] at h
    exact Or.inl (by simpa using h)
  | cons kv1 rest ih =>
    obtain ⟨k1, v1⟩ := kv1
    by_cases h1 : k1 = k
    · rw [show SpacyUtil.dinsert ((k1, v1) :: rest) k v = (k, v) :: rest from by
        simp [SpacyUtil.dinsert, h1]] at h
      rcases List.mem_cons.mp h with rfl | hmem
      · exact Or.inl rfl
      · exact Or.inr (List.mem_cons_of_mem _ hmem)
    · rw [show SpacyUtil.dinsert ((k1, v1) :: rest) k v
          = (k1, v1) :: SpacyUtil.dinsert rest k v from by
        simp [SpacyUtil.dinsert, h1]] at h
      rcases List.mem_cons.mp h with rfl | hmem
      · exact Or.inr (List.mem_cons_self _ _)
      · rcases ih hmem with heq | hmem2
        · exact Or.inl heq
        · exact Or.inr (List.mem_cons_of_mem _ hmem2)

theorem orthIsStr_fixToken (t : SpacyUtil.Tok) :
    SpacyUtil.orthIsStr (SpacyUtil.fixTokenT SpacyUtil.apos SpacyUtil.typoApos t)
      = SpacyUtil.orthIsStr t := by
  cases t with
  | mk orth norm => cases orth <;> rfl

theorem orthString_fixToken (t : SpacyUtil.Tok) (h : SpacyUtil.orthIsStr t = true) :
    (SpacyUtil.orthString (SpacyUtil.fixTokenT SpacyUtil.apos SpacyUtil.typoApos t)).data
      = SpacyUtil.substApos (SpacyUtil.orthString t).data := by
  cases t with
  | mk orth norm =>
    cases orth with
    | str s =>
      show (SpacyUtil.pyReplace s SpacyUtil.apos SpacyUtil.typoApos).data = _
      rw [pyReplace_apos]
      rfl
    | nonStr tag => exact absurd h (by simp [SpacyUtil.orthIsStr])

theorem substApos_flatten (xs : List (List Char)) :
    SpacyUtil.substApos xs.flatten = (xs.map SpacyUtil.substApos).flatten := by
  induction xs with
  | nil => rfl
  | cons x rest ih =>
    rw [List.flatten_cons, substApos_append, ih, List.map_cons, List.flatten_cons]

theorem joinOrths_fixToken (toks : List SpacyUtil.Tok)
    (h : toks.all SpacyUtil.orthIsStr = true) :
    SpacyUtil.joinOrths (toks.map (SpacyUtil.fixTokenT SpacyUtil.apos SpacyUtil.typoApos))
      = SpacyUtil.pyReplace (SpacyUtil.joinOrths toks) SpacyUtil.apos SpacyUtil.typoApos := by
  rw [pyReplace_apos]
  unfold SpacyUtil.joinOrths
  apply congrArg String.mk
  rw [show ((String.mk ((toks.map fun t => (SpacyUtil.orthString t).data).flatten)).data)
      = (toks.map fun t => (SpacyUtil.orthString t).data).flatten from rfl]
  rw [substApos_flatten, List.map_map, List.map_map]
  apply congrArg List.flatten
  apply List.map_congr_left
  intro t ht
  have hstr : SpacyUtil.orthIsStr t = true := by
    have := List.all_eq_true.mp h t ht
    simpa using this
  show (SpacyUtil.orthString (SpacyUtil.fixTokenT SpacyUtil.apos SpacyUtil.typoApos t)).data
      = SpacyUtil.substApos (SpacyUtil.orthString t).data
  exact orthString_fixToken t hstr

theorem entryGood_fixed (k : String) (v : List SpacyUtil.Tok)
    (h : SpacyUtil.entryGood (k, v)) :
    SpacyUtil.entryGood
      (SpacyUtil.pyReplace k SpacyUtil.apos SpacyUtil.typoApos,
        v.map (SpacyUtil.fixTokenT SpacyUtil.apos SpacyUtil.typoApos)) := by
  obtain ⟨hstr, hjoin⟩ := h
  constructor
  · rw [List.all_eq_true] at hstr ⊢
    intro t ht
    obtain ⟨t0, ht0, rfl⟩ := List.mem_map.mp ht
    have := hstr t0 ht0
    simpa [orthIsStr_fixToken] using this
  · show SpacyUtil.pyReplace k SpacyUtil.apos SpacyUtil.typoApos = _
    rw [joinOrths_fixToken v (by simpa using hstr)]
    rw [show k = SpacyUtil.joinOrths v from hjoin]

theorem foldl_expandStep_good (l : SpacyUtil.ExcTable) :
    ∀ acc, (∀ kv ∈ acc, SpacyUtil.entryGood kv) → (∀ kv ∈ l, SpacyUtil.entryGood kv) →
      ∀ kv ∈ l.foldl SpacyUtil.expandStep acc, SpacyUtil.entryGood kv := by
  induction l with
  | nil => intro acc hacc _ kv hkv; exact hacc kv hkv
  | cons kv1 rest ih =>
    intro acc hacc hl kv hkv
    rw [show (kv1 :: rest).foldl SpacyUtil.expandStep acc
        = rest.foldl SpacyUtil.expandStep (SpacyUtil.expandStep acc kv1) from rfl] at hkv
    refine ih _ ?_ (fun u hu => hl u (List.mem_cons_of_mem _ hu)) kv hkv
    intro u hu
    unfold SpacyUtil.expandStep at hu
    by_cases hcon : SpacyUtil.pyContains kv1.1 SpacyUtil.apos = true
    · rw [if_pos hcon] at hu
      rcases mem_dinsert _ _ _ u hu with rfl | hmem
      · exact entryGood_fixed kv1.1 kv1.2 (hl (kv1.1, kv1.2) (by
          rw [show (kv1.1, kv1.2) = kv1 from rfl]
          exact List.mem_cons_self _ _))
      · exact hacc u hmem
    · rw [if_neg hcon] at hu
      exact hacc u hu

theorem update_exc_go_ok_value (adds : List SpacyUtil.ExcTable) :
    ∀ exc0 exc, SpacyUtil.update_exc_go exc0 adds = .ok exc →
      exc = adds.foldl SpacyUtil.dmerge exc0 := by
  induction adds with
  | nil =>
    intro exc0 exc h
    have h2 : exc0 = exc := by simpa [SpacyUtil.update_exc_go] using h
    rw [← h2]
    rfl
  | cons t rest ih =>
    intro exc0 exc h
    cases hc : SpacyUtil.checkTable t with
    | error e =>
      have heq : SpacyUtil.update_exc_go exc0 (t :: rest) = .error e := by
        show (SpacyUtil.checkTable t >>= fun _ =>
          SpacyUtil.update_exc_go (SpacyUtil.dmerge exc0 t) rest) = _
        rw [hc]
        rfl
      rw [heq] at h
      simp at h
    | ok u =>
      obtain ⟨⟩ := u
      have heq : SpacyUtil.update_exc_go exc0 (t :: rest)
          = SpacyUtil.update_exc_go (SpacyUtil.dmerge exc0 t) rest := by
        show (SpacyUtil.checkTable t >>= fun _ =>
          SpacyUtil.update_exc_go (SpacyUtil.dmerge exc0 t) rest) = _
        rw [hc]
        rfl
      rw [heq] at h
      exact ih _ exc h

theorem update_exc_ok_shape (base : SpacyUtil.ExcTable)
    (adds : List SpacyUtil.ExcTable) (tbl : SpacyUtil.ExcTable)
    (h : SpacyUtil.update_exc base adds = .ok tbl) :
    (∀ kv ∈ SpacyUtil.dmergeAll base adds,
      SpacyUtil.pyContains kv.1 SpacyUtil.apos = true →
        kv.2.all SpacyUtil.orthIsStr = true) ∧
    tbl = (SpacyUtil.dmergeAll base adds).foldl SpacyUtil.expandStep
      (SpacyUtil.dmergeAll base adds) := by
  unfold SpacyUtil.update_exc at h
  cases hg : SpacyUtil.update_exc_go base adds with
  | error e => rw [hg] at h; cases h
  | ok exc =>
    rw [hg] at h
    have hexc : exc = adds.foldl SpacyUtil.dmerge base :=
      update_exc_go_ok_value adds base exc hg
    rw [hexc] at h
    exact (expand_exc_ok_iff (SpacyUtil.dmergeAll base adds) tbl).mp h

/-- C2 (amended): `update_exc` raises exactly when some entry of an
addition table has a non-string sub-token ORTH or sub-token ORTHs whose
concatenation differs from the entry's key (`ValueError` at validation
time — base entries are never validated), or when the merged table has an
entry whose key contains an ASCII apostrophe and whose sub-tokens include
a non-string ORTH — only base entries can smuggle one in — in which case
`_fix_token` raises `AttributeError` inside the final `expand_exc`.  When
neither holds, it returns the combined table — later additions
overwriting earlier entries for the same key — closed under replacing
ASCII apostrophes by typographic ones, an expansion that can itself
overwrite an entry whose key collides with the expansion of another
key. -/
theorem update_exc_spec (base : SpacyUtil.ExcTable) (adds : List SpacyUtil.ExcTable)
    (hnd : ∀ t ∈ adds, (t.map Prod.fst).Nodup) :
    ((∃ e, SpacyUtil.update_exc base adds = .error e) ↔
      ((∃ t ∈ adds, ∃ kv ∈ t,
          ¬ (kv.2.all SpacyUtil.orthIsStr = true ∧ kv.1 = SpacyUtil.joinOrths kv.2)) ∨
        ∃ kv ∈ SpacyUtil.dmergeAll base adds,
          SpacyUtil.pyContains kv.1 SpacyUtil.apos = true ∧
            kv.2.all SpacyUtil.orthIsStr = false)) ∧
    (((∀ t ∈ adds, ∀ kv ∈ t,
          (kv.2.all SpacyUtil.orthIsStr = true ∧ kv.1 = SpacyUtil.joinOrths kv.2)) ∧
        (∀ kv ∈ SpacyUtil.dmergeAll base adds,
          SpacyUtil.pyContains kv.1 SpacyUtil.apos = true →
            kv.2.all SpacyUtil.orthIsStr = true)) →
      SpacyUtil.update_exc base adds =
        .ok ((SpacyUtil.dmergeAll base adds).foldl SpacyUtil.expandStep
          (SpacyUtil.dmergeAll base adds))) ∧
    (∀ k, SpacyUtil.dlookup (SpacyUtil.dmergeAll base adds) k =
      (adds.reverse.findSome? (fun t => SpacyUtil.dlookup t k)).or
        (SpacyUtil.dlookup base k)) := by
  refine ⟨?_, ?_, dlookup_dmergeAll base adds hnd⟩
  · constructor
    · intro h
      obtain ⟨e, he⟩ := h
      unfold SpacyUtil.update_exc at he
      cases hg : SpacyUtil.update_exc_go base adds with
      | error e2 =>
        left
        obtain ⟨t, ht, hbad⟩ := (update_exc_go_error_iff base adds).mp ⟨e2, hg⟩
        refine ⟨t, ht, ?_⟩
        by_contra hno
        push_neg at hno
        exact hbad ((checkTable_ok_iff t).mpr hno)
      | ok exc =>
        right
        rw [hg] at he
        have hexc : exc = adds.foldl SpacyUtil.dmerge base :=
          update_exc_go_ok_value adds base exc hg
        rw [hexc] at he
        exact (expand_exc_error_iff (SpacyUtil.dmergeAll base adds)).mp ⟨e, he⟩
    · intro h
      rcases h with ⟨t, ht, kv, hkv, hbad⟩ | hbadexp
      · obtain ⟨e, hge⟩ := (update_exc_go_error_iff base adds).mpr
          ⟨t, ht, fun hok => hbad (((checkTable_ok_iff t).mp hok) kv hkv)⟩
        refine ⟨e, ?_⟩
        unfold SpacyUtil.update_exc
        rw [hge]
      · unfold SpacyUtil.update_exc
        cases hg : SpacyUtil.update_exc_go base adds with
        | error e => exact ⟨e, rfl⟩
        | ok exc =>
          have hexc : exc = adds.foldl SpacyUtil.dmerge base :=
            update_exc_go_ok_value adds base exc hg
          rw [hexc]
          exact (expand_exc_error_iff (SpacyUtil.dmergeAll base adds)).mpr hbadexp
  · intro h
    obtain ⟨hgood, hsafe⟩ := h
    have hok : ∀ t ∈ adds, SpacyUtil.checkTable t = .ok () :=
      fun t ht => (checkTable_ok_iff t).mpr (fun kv hkv => hgood t ht kv hkv)
    unfold SpacyUtil.update_exc
    rw [update_exc_go_ok base adds hok]
    show SpacyUtil.expand_exc (SpacyUtil.dmergeAll base adds)
        SpacyUtil.apos SpacyUtil.typoApos = _
    exact (expand_exc_ok_iff (SpacyUtil.dmergeAll base adds) _).mpr ⟨hsafe, rfl⟩

/-- Witness for `update_exc_spec` at a concrete validated addition. -/
theorem update_exc_spec_witness :
    (∀ t ∈ ([[("ab", [⟨.str "a", none⟩, ⟨.str "b", none⟩])]] : List SpacyUtil.ExcTable),
      (t.map Prod.fst).Nodup) ∧
    (((∀ t ∈ ([[("ab", [⟨.str "a", none⟩, ⟨.str "b", none⟩])]] : List SpacyUtil.ExcTable),
        ∀ kv ∈ t,
        (kv.2.all SpacyUtil.orthIsStr = true ∧ kv.1 = SpacyUtil.joinOrths kv.2)) ∧
      (∀ kv ∈ SpacyUtil.dmergeAll []
          [[("ab", [⟨.str "a", none⟩, ⟨.str "b", none⟩])]],
        SpacyUtil.pyContains kv.1 SpacyUtil.apos = true →
          kv.2.all SpacyUtil.orthIsStr = true)) →
      SpacyUtil.update_exc [] [[("ab", [⟨.str "a", none⟩, ⟨.str "b", none⟩])]] =
        .ok ((SpacyUtil.dmergeAll []
            [[("ab", [⟨.str "a", none⟩, ⟨.str "b", none⟩])]]).foldl
          SpacyUtil.expandStep
          (SpacyUtil.dmergeAll []
            [[("ab", [⟨.str "a", none⟩, ⟨.str "b", none⟩])]]))) :=
  ⟨by decide,
    (update_exc_spec [] [[("ab", [⟨.str "a", none⟩, ⟨.str "b", none⟩])]] (by decide)).2.1⟩

/-- C8 (amended): the table returned by `update_exc` is closed under
typographic-apostrophe substitution in its keys: every key containing the
ASCII apostrophe also appears with all apostrophes replaced by `’`.  When
no two distinct keys of the merged table collide under the substitution,
the typographic key maps to the ORTH-rewritten copy of the ASCII key's
sub-token list; colliding keys are resolved by table order (last wins), so
in general an expanded entry may carry another key's rewritten value.
The added entries satisfy the self-consistency invariant provided every
entry of the merged table does — which `update_exc` enforces for addition
entries but NOT for base entries, so an inconsistent base entry yields an
inconsistent expanded entry. -/
theorem update_exc_apostrophe_closure (base : SpacyUtil.ExcTable)
    (adds : List SpacyUtil.ExcTable) (tbl : SpacyUtil.ExcTable)
    (hok : SpacyUtil.update_exc base adds = .ok tbl) :
    (∀ k v, SpacyUtil.dlookup tbl k = some v →
      SpacyUtil.pyContains k SpacyUtil.apos = true →
      ∃ w, SpacyUtil.dlookup tbl
        (SpacyUtil.pyReplace k SpacyUtil.apos SpacyUtil.typoApos) = some w) ∧
    ((((SpacyUtil.dmergeAll base adds).map Prod.fst).Nodup →
      (∀ k1 ∈ (SpacyUtil.dmergeAll base adds).map Prod.fst,
       ∀ k2 ∈ (SpacyUtil.dmergeAll base adds).map Prod.fst,
        SpacyUtil.pyReplace k1 SpacyUtil.apos SpacyUtil.typoApos =
          SpacyUtil.pyReplace k2 SpacyUtil.apos SpacyUtil.typoApos → k1 = k2) →
      ∀ k v, SpacyUtil.dlookup (SpacyUtil.dmergeAll base adds) k = some v →
        SpacyUtil.pyContains k SpacyUtil.apos = true →
        SpacyUtil.dlookup tbl
            (SpacyUtil.pyReplace k SpacyUtil.apos SpacyUtil.typoApos) =
          some (v.map (SpacyUtil.fixTokenT SpacyUtil.apos SpacyUtil.typoApos)))) ∧
    ((∀ kv ∈ SpacyUtil.dmergeAll base adds, SpacyUtil.entryGood kv) →
      ∀ kv ∈ tbl, SpacyUtil.entryGood kv) := by
  have hshape := update_exc_ok_shape base adds tbl hok
  rw [hshape.2]
  set merged := SpacyUtil.dmergeAll base adds with hmerged
  refine ⟨?_, ?_, ?_⟩
  · intro k v hk hcon
    rcases dlookup_foldl_inv merged merged k v hk with hacc | ⟨kv2, _, _, hrep⟩
    · have hmem : (k, v) ∈ merged := dlookup_some_mem _ _ _ hacc
      have := dlookup_foldl_write merged merged (k, v) hmem hcon
      exact Option.isSome_iff_exists.mp this
    · rw [hrep] at hcon
      rw [rep_no_apos] at hcon
      cases hcon
  · intro hnd hinj k v hk hcon
    have hmem : (k, v) ∈ merged := dlookup_some_mem _ _ _ hk
    refine dlookup_foldl_value merged merged k v hmem hcon hnd ?_
    intro kv hkv hrep hc2
    exact hinj kv.1 (List.mem_map_of_mem Prod.fst hkv) k
      (List.mem_map_of_mem Prod.fst hmem) hrep
  · intro hgood
    exact foldl_expandStep_good merged merged hgood hgood

/-- C8 counterexample to the claim as stated: `update_exc` never validates
BASE entries; with the base table mapping the key `a'` to the single
sub-token `x` (which does not concatenate to `a'`), the returned table
contains the expanded entry `a’ -> [x]`, whose sub-token ORTHs
concatenate to `x`, not to its key `a’` — the self-consistency clause of
the claim fails for the added entry. -/
theorem expand_breaks_consistency :
    SpacyUtil.update_exc SpacyUtil.cexBase [] = .ok SpacyUtil.cexBaseResult ∧
    (SpacyUtil.keyTypA, [(⟨.str "x", none⟩ : SpacyUtil.Tok)]) ∈ SpacyUtil.cexBaseResult ∧
    SpacyUtil.joinOrths [(⟨.str "x", none⟩ : SpacyUtil.Tok)] ≠ SpacyUtil.keyTypA := by
  refine ⟨by rfl, by decide, by decide⟩

/-- Witness for `update_exc_apostrophe_closure`: the table obtained from
the single validated addition `a' -> [a']` contains the typographic copy
of the key `a'`. -/
theorem update_exc_apostrophe_closure_witness :
    SpacyUtil.update_exc [] [[(SpacyUtil.keyAscA, [⟨.str SpacyUtil.keyAscA, none⟩])]]
      = .ok SpacyUtil.w8tbl ∧
    SpacyUtil.dlookup SpacyUtil.w8tbl SpacyUtil.keyAscA =
      some [⟨.str SpacyUtil.keyAscA, none⟩] ∧
    SpacyUtil.pyContains SpacyUtil.keyAscA SpacyUtil.apos = true ∧
    (∃ w, SpacyUtil.dlookup SpacyUtil.w8tbl
      (SpacyUtil.pyReplace SpacyUtil.keyAscA SpacyUtil.apos SpacyUtil.typoApos)
        = some w) :=
  ⟨by rfl, by rfl, by rfl,
    (update_exc_apostrophe_closure []
        [[(SpacyUtil.keyAscA, [⟨.str SpacyUtil.keyAscA, none⟩])]]
        SpacyUtil.w8tbl (by rfl)).1
      SpacyUtil.keyAscA [⟨.str SpacyUtil.keyAscA, none⟩] (by rfl) (by rfl)⟩

/-! Lemmas for `filter_spans` (C9). -/

theorem sinsert_perm (lt : SpacyUtil.Span → SpacyUtil.Span → Bool) (x : SpacyUtil.Span) :
    ∀ l, List.Perm (SpacyUtil.sinsert lt x l) (x :: l) := by
  intro l
  induction l with
  | nil => rfl
  | cons y ys ih =>
    rw [SpacyUtil.sinsert]
    by_cases h : lt x y = true
    · rw [if_pos h]
    · rw [if_neg h]
      exact List.Perm.trans (List.Perm.cons y ih) (List.Perm.swap x y ys)

theorem ssort_perm (lt : SpacyUtil.Span → SpacyUtil.Span → Bool) :
    ∀ l, List.Perm (SpacyUtil.ssort lt l) l := by
  intro l
  induction l with
  | nil => rfl
  | cons x xs ih =>
    exact List.Perm.trans (sinsert_perm lt x _) (List.Perm.cons x ih)

theorem mem_ssort (lt : SpacyUtil.Span → SpacyUtil.Span → Bool) (l : List SpacyUtil.Span)
    (a : SpacyUtil.Span) : a ∈ SpacyUtil.ssort lt l ↔ a ∈ l :=
  (ssort_perm lt l).mem_iff

theorem sinsert_pairwise (lt : SpacyUtil.Span → SpacyUtil.Span → Bool)
    (hasym : ∀ a b, lt a b = true → lt b a = false)
    (htrans : ∀ a b c, lt a b = true → lt b c = true → lt a c = true)
    (x : SpacyUtil.Span) :
    ∀ l, l.Pairwise (fun a b => lt b a = false) →
      (SpacyUtil.sinsert lt x l).Pairwise (fun a b => lt b a = false) := by
  intro l
  induction l with
  | nil => intro _; simp [SpacyUtil.sinsert]
  | cons y ys ih =>
    intro hpw
    obtain ⟨hy, hys⟩ := List.pairwise_cons.mp hpw
    rw [SpacyUtil.sinsert]
    by_cases h : lt x y = true
    · rw [if_pos h]
      refine List.pairwise_cons.mpr ⟨?_, hpw⟩
      intro z hz
      rcases List.mem_cons.mp hz with rfl | hmem
      · exact hasym x z h
      · cases hzx : lt z x with
        | false => rfl
        | true =>
          have : lt z y = true := htrans z x y hzx h
          rw [hy z hmem] at this
          cases this
    · rw [if_neg h]
      refine List.pairwise_cons.mpr ⟨?_, ih hys⟩
      intro z hz
      rcases List.mem_cons.mp ((sinsert_perm lt x ys).mem_iff.mp hz) with rfl | hmem
      · cases hxy : lt z y with
        | false => rfl
        | true => exact absurd hxy h
      · exact hy z hmem

theorem ssort_pairwise (lt : SpacyUtil.Span → SpacyUtil.Span → Bool)
    (hasym : ∀ a b, lt a b = true → lt b a = false)
    (htrans : ∀ a b c, lt a b = true → lt b c = true → lt a c = true) :
    ∀ l, (SpacyUtil.ssort lt l).Pairwise (fun a b => lt b a = false) := by
  intro l
  induction l with
  | nil => simp [SpacyUtil.ssort]
  | cons x xs ih => exact sinsert_pairwise lt hasym htrans x _ ih

theorem spanBefore_asym (a b : SpacyUtil.Span) (h : SpacyUtil.spanBefore a b = true) :
    SpacyUtil.spanBefore b a = false := by
  simp [SpacyUtil.spanBefore, SpacyUtil.spanLen] at h ⊢
  omega

theorem spanBefore_trans (a b c : SpacyUtil.Span) (h1 : SpacyUtil.spanBefore a b = true)
    (h2 : SpacyUtil.spanBefore b c = true) : SpacyUtil.spanBefore a c = true := by
  simp [SpacyUtil.spanBefore, SpacyUtil.spanLen] at h1 h2 ⊢
  omega

theorem spanBefore_irrefl (a : SpacyUtil.Span) : SpacyUtil.spanBefore a a = false := by
  simp [SpacyUtil.spanBefore, SpacyUtil.spanLen]

theorem seenOf_append_single (ps : List SpacyUtil.Span) (s : SpacyUtil.Span) :
    SpacyUtil.seenOf (ps ++ [s]) =
      SpacyUtil.seenOf ps ++ SpacyUtil.rangeL s.start s.end_ := by
  unfold SpacyUtil.seenOf
  rw [List.map_append, List.flatten_append]
  simp

theorem fsLoop_eq (l : List SpacyUtil.Span) :
    ∀ res procd, SpacyUtil.fsLoop l res (SpacyUtil.seenOf procd)
      = res ++ SpacyUtil.fsAux l procd := by
  induction l with
  | nil => intro res procd; simp [SpacyUtil.fsLoop, SpacyUtil.fsAux]
  | cons s rest ih =>
    intro res procd
    rw [SpacyUtil.fsLoop, SpacyUtil.fsAux]
    by_cases hacc : s.start ∉ SpacyUtil.seenOf procd ∧
        s.end_ - 1 ∉ SpacyUtil.seenOf procd
    · rw [if_pos hacc, if_pos hacc]
      rw [← seenOf_append_single, ih (res ++ [s]) (procd ++ [s])]
      simp
    · rw [if_neg hacc, if_neg hacc]
      rw [← seenOf_append_single, ih res (procd ++ [s])]
      simp

theorem mem_rangeL (x s e : Int) : x ∈ SpacyUtil.rangeL s e ↔ s ≤ x ∧ x < e := by
  unfold SpacyUtil.rangeL
  constructor
  · intro h
    obtain ⟨i, hi, hx⟩ := List.mem_map.mp h
    have hi2 : i < (e - s).toNat := List.mem_range.mp hi
    have hx2 : s + (i : Int) = x := hx
    omega
  · intro ⟨h1, h2⟩
    apply List.mem_map.mpr
    refine ⟨(x - s).toNat, List.mem_range.mpr ?_, ?_⟩
    · omega
    · show s + ((x - s).toNat : Int) = x
      omega

theorem mem_seenOf (x : Int) (ps : List SpacyUtil.Span) :
    x ∈ SpacyUtil.seenOf ps ↔ ∃ p ∈ ps, p.start ≤ x ∧ x < p.end_ := by
  unfold SpacyUtil.seenOf
  constructor
  · intro h
    obtain ⟨ll, hll, hx⟩ := List.mem_flatten.mp h
    obtain ⟨p, hp, rfl⟩ := List.mem_map.mp hll
    exact ⟨p, hp, (mem_rangeL x _ _).mp hx⟩
  · intro ⟨p, hp, hr⟩
    exact List.mem_flatten.mpr ⟨SpacyUtil.rangeL p.start p.end_,
      List.mem_map.mpr ⟨p, hp, rfl⟩, (mem_rangeL x _ _).mpr hr⟩

theorem fsAux_subset (l : List SpacyUtil.Span) :
    ∀ P r, r ∈ SpacyUtil.fsAux l P → r ∈ l := by
  induction l with
  | nil => intro P r h; simp [SpacyUtil.fsAux] at h
  | cons s rest ih =>
    intro P r h
    rw [SpacyUtil.fsAux] at h
    rcases List.mem_append.mp h with hif | htail
    · by_cases hacc : s.start ∉ SpacyUtil.seenOf P ∧ s.end_ - 1 ∉ SpacyUtil.seenOf P
      · rw [if_pos hacc] at hif
        have : r = s := by simpa using hif
        rw [this]
        exact List.mem_cons_self _ _
      · rw [if_neg hacc] at hif
        simp at hif
    · exact List.mem_cons_of_mem _ (ih _ r htail)

theorem overlap_comm (a b : SpacyUtil.Span) :
    SpacyUtil.overlap a b ↔ SpacyUtil.overlap b a := by
  unfold SpacyUtil.overlap
  exact And.comm

theorem fsAux_no_overlap_prior (l : List SpacyUtil.Span) :
    ∀ P, (∀ p ∈ P, ∀ b ∈ l, SpacyUtil.spanBefore b p = false) →
      l.Pairwise (fun a b => SpacyUtil.spanBefore b a = false) →
      ∀ r ∈ SpacyUtil.fsAux l P, ∀ p ∈ P, ¬ SpacyUtil.overlap r p := by
  induction l with
  | nil => intro P _ _ r hr; simp [SpacyUtil.fsAux] at hr
  | cons s rest ih =>
    intro P hord hpw r hr p hp hov
    obtain ⟨hhead, htail⟩ := List.pairwise_cons.mp hpw
    rw [SpacyUtil.fsAux] at hr
    rcases List.mem_append.mp hr with hif | htl
    · by_cases hacc : s.start ∉ SpacyUtil.seenOf P ∧ s.end_ - 1 ∉ SpacyUtil.seenOf P
      · rw [if_pos hacc] at hif
        have hrs : r = s := by simpa using hif
        subst hrs
        have h1 : ¬ (p.start ≤ r.start ∧ r.start < p.end_) :=
          fun hc => hacc.1 ((mem_seenOf _ _).mpr ⟨p, hp, hc⟩)
        have h2 : ¬ (p.start ≤ r.end_ - 1 ∧ r.end_ - 1 < p.end_) :=
          fun hc => hacc.2 ((mem_seenOf _ _).mpr ⟨p, hp, hc⟩)
        have h3 := hord p hp r (List.mem_cons_self _ _)
        simp [SpacyUtil.spanBefore, SpacyUtil.spanLen] at h3
        obtain ⟨ho1, ho2⟩ := hov
        omega
      · rw [if_neg hacc] at hif
        simp at hif
    · have hord2 : ∀ q ∈ P ++ [s], ∀ b ∈ rest, SpacyUtil.spanBefore b q = false := by
        intro q hq b hb
        rcases List.mem_append.mp hq with hq1 | hq2
        · exact hord q hq1 b (List.mem_cons_of_mem _ hb)
        · have : q = s := by simpa using hq2
          rw [this]
          exact hhead b hb
      exact ih (P ++ [s]) hord2 htail r htl p (List.mem_append.mpr (Or.inl hp)) hov

theorem fsAux_pairwise_disjoint (l : List SpacyUtil.Span) :
    ∀ P, (∀ p ∈ P, ∀ b ∈ l, SpacyUtil.spanBefore b p = false) →
      l.Pairwise (fun a b => SpacyUtil.spanBefore b a = false) →
      (SpacyUtil.fsAux l P).Pairwise (fun a b => ¬ SpacyUtil.overlap a b) := by
  induction l with
  | nil => intro P _ _; simp [SpacyUtil.fsAux]
  | cons s rest ih =>
    intro P hord hpw
    obtain ⟨hhead, htail⟩ := List.pairwise_cons.mp hpw
    have hord2 : ∀ q ∈ P ++ [s], ∀ b ∈ rest, SpacyUtil.spanBefore b q = false := by
      intro q hq b hb
      rcases List.mem_append.mp hq with hq1 | hq2
      · exact hord q hq1 b (List.mem_cons_of_mem _ hb)
      · have : q = s := by simpa using hq2
        rw [this]
        exact hhead b hb
    rw [SpacyUtil.fsAux]
    apply List.pairwise_append.mpr
    refine ⟨?_, ih (P ++ [s]) hord2 htail, ?_⟩
    · split <;> simp
    · intro a ha b hb
      have has : a = s := by
        by_cases hacc : s.start ∉ SpacyUtil.seenOf P ∧ s.end_ - 1 ∉ SpacyUtil.seenOf P
        · rw [if_pos hacc] at ha; simpa using ha
        · rw [if_neg hacc] at ha; simp at ha
      subst has
      intro hov
      exact fsAux_no_overlap_prior rest (P ++ [a]) hord2 htail b hb a
        (List.mem_append.mpr (Or.inr (by simp))) ((overlap_comm a b).mp hov)

theorem fsAux_dominates (l : List SpacyUtil.Span) :
    ∀ P, (∀ p ∈ P, ∀ b ∈ l, SpacyUtil.spanBefore b p = false) →
      l.Pairwise (fun a b => SpacyUtil.spanBefore b a = false) →
      ∀ r ∈ SpacyUtil.fsAux l P, ∀ s2 ∈ l, SpacyUtil.overlap r s2 →
        SpacyUtil.spanBefore s2 r = false := by
  induction l with
  | nil => intro P _ _ r hr; simp [SpacyUtil.fsAux] at hr
  | cons s rest ih =>
    intro P hord hpw r hr s2 hs2 hov
    obtain ⟨hhead, htail⟩ := List.pairwise_cons.mp hpw
    have hord2 : ∀ q ∈ P ++ [s], ∀ b ∈ rest, SpacyUtil.spanBefore b q = false := by
      intro q hq b hb
      rcases List.mem_append.mp hq with hq1 | hq2
      · exact hord q hq1 b (List.mem_cons_of_mem _ hb)
      · have : q = s := by simpa using hq2
        rw [this]
        exact hhead b hb
    rw [SpacyUtil.fsAux] at hr
    rcases List.mem_append.mp hr with hif | htl
    · have hrs : r = s := by
        by_cases hacc : s.start ∉ SpacyUtil.seenOf P ∧ s.end_ - 1 ∉ SpacyUtil.seenOf P
        · rw [if_pos hacc] at hif; simpa using hif
        · rw [if_neg hacc] at hif; simp at hif
      subst hrs
      rcases List.mem_cons.mp hs2 with rfl | hmem
      · exact spanBefore_irrefl s2
      · exact hhead s2 hmem
    · rcases List.mem_cons.mp hs2 with rfl | hmem
      · exact absurd hov
          (fsAux_no_overlap_prior rest (P ++ [s2]) hord2 htail r htl s2
            (List.mem_append.mpr (Or.inr (by simp))))
      · exact ih (P ++ [s]) hord2 htail r htl s2 hmem hov

/-- C9 (amended): for spans with `start < end`, `filter_spans` returns a
list of spans drawn from the input, sorted by non-decreasing start, in
which no two returned spans overlap (no token index lies in two of them);
every retained span has priority at least that of ANY input span it
overlaps (longer wins, ties by smaller start) — but a span overlapped only
by higher-priority spans that were themselves rejected may also be
dropped, so the longest among mutually overlapping input spans is not
always retained. -/
theorem filter_spans_spec (spans : List SpacyUtil.Span)
    (hpos : ∀ s ∈ spans, s.start < s.end_) :
    (∀ r ∈ SpacyUtil.filter_spans spans, r ∈ spans) ∧
    (SpacyUtil.filter_spans spans).Pairwise (fun a b => a.start ≤ b.start) ∧
    (SpacyUtil.filter_spans spans).Pairwise (fun a b => ¬ SpacyUtil.overlap a b) ∧
    (∀ r ∈ SpacyUtil.filter_spans spans, ∀ s2 ∈ spans,
      SpacyUtil.overlap r s2 → SpacyUtil.spanBefore s2 r = false) := by
  have hLpw : (SpacyUtil.ssort SpacyUtil.spanBefore spans).Pairwise
      (fun a b => SpacyUtil.spanBefore b a = false) :=
    ssort_pairwise SpacyUtil.spanBefore spanBefore_asym spanBefore_trans spans
  have hord0 : ∀ p ∈ ([] : List SpacyUtil.Span),
      ∀ b ∈ SpacyUtil.ssort SpacyUtil.spanBefore spans,
        SpacyUtil.spanBefore b p = false := by
    intro p hp
    simp at hp
  have hres : SpacyUtil.filter_spans spans
      = SpacyUtil.ssort (fun a b => a.start < b.start)
          (SpacyUtil.fsAux (SpacyUtil.ssort SpacyUtil.spanBefore spans) []) := by
    unfold SpacyUtil.filter_spans
    rw [show ([] : List Int) = SpacyUtil.seenOf [] from rfl,
      fsLoop_eq (SpacyUtil.ssort SpacyUtil.spanBefore spans) [] []]
    rfl
  have hmem : ∀ r, r ∈ SpacyUtil.filter_spans spans ↔
      r ∈ SpacyUtil.fsAux (SpacyUtil.ssort SpacyUtil.spanBefore spans) [] := by
    intro r
    rw [hres]
    exact mem_ssort _ _ r
  refine ⟨?_, ?_, ?_, ?_⟩
  · intro r hr
    have := fsAux_subset _ [] r ((hmem r).mp hr)
    exact (mem_ssort _ _ r).mp this
  · have := ssort_pairwise (fun a b => decide (a.start < b.start))
      (fun a b h => by simp at h ⊢; omega)
      (fun a b c h1 h2 => by simp at h1 h2 ⊢; omega)
      (SpacyUtil.fsAux (SpacyUtil.ssort SpacyUtil.spanBefore spans) [])
    rw [hres]
    refine this.imp ?_
    intro a b h
    simp at h
    omega
  · rw [hres]
    have hperm := ssort_perm (fun a b => decide (a.start < b.start))
      (SpacyUtil.fsAux (SpacyUtil.ssort SpacyUtil.spanBefore spans) [])
    have hsymm : Symmetric (fun a b => ¬ SpacyUtil.overlap a b) := by
      intro a b h hov
      exact h ((overlap_comm b a).mp hov)
    exact (hperm.pairwise_iff (fun h => hsymm h)).mpr
      (fsAux_pairwise_disjoint _ [] hord0 hLpw)
  · intro r hr s2 hs2 hov
    exact fsAux_dominates _ [] hord0 hLpw r ((hmem r).mp hr) s2
      ((mem_ssort _ _ s2).mpr hs2) hov

/-- C9 counterexample to the claim as stated: in
`[(0,3), (2,4), (3,5)]` the spans `(2,4)` and `(3,5)` overlap, and the
preferred one among them by (length, then smaller start) is `(2,4)` — yet
`filter_spans` retains neither: `(2,4)` is rejected because it overlaps
the longer `(0,3)`, and `(3,5)` is rejected because the REJECTED `(2,4)`
already marked token 3 as seen.  So "whenever input spans overlap, the
longest one is the one retained" fails. -/
theorem filter_spans_not_longest_retained :
    SpacyUtil.filter_spans [⟨0,3⟩, ⟨2,4⟩, ⟨3,5⟩] = [⟨0,3⟩] ∧
    SpacyUtil.overlap ⟨2,4⟩ ⟨3,5⟩ ∧
    SpacyUtil.spanLen ⟨3,5⟩ ≤ SpacyUtil.spanLen ⟨2,4⟩ ∧
    (⟨2,4⟩ : SpacyUtil.Span) ∉ SpacyUtil.filter_spans [⟨0,3⟩, ⟨2,4⟩, ⟨3,5⟩] ∧
    (⟨3,5⟩ : SpacyUtil.Span) ∉ SpacyUtil.filter_spans [⟨0,3⟩, ⟨2,4⟩, ⟨3,5⟩] := by
  refine ⟨by decide, ⟨by decide, by decide⟩, by decide, by decide, by decide⟩

/-- Witness for `filter_spans_spec` at the spans `[(0,2), (1,4)]`. -/
theorem filter_spans_spec_witness :
    (∀ s ∈ ([⟨0,2⟩, ⟨1,4⟩] : List SpacyUtil.Span), s.start < s.end_) ∧
    (∀ r ∈ SpacyUtil.filter_spans [⟨0,2⟩, ⟨1,4⟩],
      r ∈ ([⟨0,2⟩, ⟨1,4⟩] : List SpacyUtil.Span)) ∧
    (∀ r ∈ SpacyUtil.filter_spans [⟨0,2⟩, ⟨1,4⟩],
      ∀ s2 ∈ ([⟨0,2⟩, ⟨1,4⟩] : List SpacyUtil.Span),
      SpacyUtil.overlap r s2 → SpacyUtil.spanBefore s2 r = false) :=
  ⟨by decide,
    (filter_spans_spec [⟨0,2⟩, ⟨1,4⟩] (by decide)).1,
    (filter_spans_spec [⟨0,2⟩, ⟨1,4⟩] (by decide)).2.2.2⟩

/-! Lemmas for the spec-modelled arc-eager transition system (C4, C5). -/

theorem headOf_set_ne (s s2 : ArcEager.PState) (j : Nat) (v : Option (Nat × Nat))
    (hh : s2.heads = s.heads.set j v) (i : Nat) (hij : j ≠ i) :
    ArcEager.headOf s2 i = ArcEager.headOf s i := by
  unfold ArcEager.headOf
  rw [hh, List.getElem?_set_ne hij]

theorem headOf_init (n : Nat) (bounds : List Nat) (i : Nat) :
    ArcEager.headOf (ArcEager.init n bounds) i = none := by
  unfold ArcEager.headOf ArcEager.init
  cases h : (List.replicate n (none : Option (Nat × Nat)))[i]? with
  | none => rfl
  | some v =>
    have := List.getElem?_mem h
    have hv : v = none := by simpa using (List.eq_of_mem_replicate this)
    rw [hv]

theorem init_InvHeads (n : Nat) (bounds : List Nat) :
    ArcEager.InvHeads (ArcEager.init n bounds) := by
  refine ⟨List.nodup_range n, ?_, ?_, ?_, by simp [ArcEager.init]⟩
  · intro i hi
    exact List.mem_range.mp hi
  · intro i hi
    have : i = n := by simpa [ArcEager.init] using hi
    rw [this]
    simp [ArcEager.init]
  · intro i _
    exact headOf_init n bounds i

theorem applyT_head_mono (s s2 : ArcEager.PState) (t : ArcEager.PTrans)
    (hinv : ArcEager.InvHeads s) (happ : ArcEager.applyT s t = some s2) :
    ∀ i h, ArcEager.headOf s i = some h → ArcEager.headOf s2 i = some h := by
  intro i h hhead
  obtain ⟨hnd, hlt, hdisj, hnone, hlen⟩ := hinv
  unfold ArcEager.applyT at happ
  by_cases hl : ArcEager.legal s t = true
  · rw [if_pos hl] at happ
    cases t with
    | shift =>
      cases hb : s.buffer with
      | nil => rw [hb] at happ; simp at happ
      | cons f rest =>
        rw [hb] at happ
        have hs2 : s2 = { s with stack := f :: s.stack, buffer := rest } := by
          simpa using happ.symm
        rw [hs2]
        exact hhead
    | rightArc lbl =>
      cases hb : s.buffer with
      | nil => rw [hb] at happ; simp at happ
      | cons f rest =>
        cases hst : s.stack with
        | nil => rw [hb, hst] at happ; simp at happ
        | cons t0 srest =>
          rw [hb, hst] at happ
          have hs2 : s2.heads = s.heads.set f (some (t0, lbl)) := by
            have := happ.symm
            simp at this
            rw [this]
          have hfi : f ≠ i := by
            intro hfe
            have := hnone f (by rw [hb]; exact List.mem_cons_self _ _)
            rw [hfe, hhead] at this
            cases this
          rw [headOf_set_ne s s2 f (some (t0, lbl)) hs2 i hfi]
          exact hhead
    | leftArc lbl =>
      cases hst : s.stack with
      | nil => rw [hst] at happ; simp at happ
      | cons t0 srest =>
        cases hb : s.buffer with
        | nil => rw [hst, hb] at happ; simp at happ
        | cons f rest =>
          rw [hst, hb] at happ
          have hs2 : s2.heads = s.heads.set t0 (some (f, lbl)) := by
            have := happ.symm
            simp at this
            rw [this]
          have ht0i : t0 ≠ i := by
            intro hte
            -- legality says the stack top is headless
            unfold ArcEager.legal at hl
            rw [show s.stack.head? = some t0 from by rw [hst]; rfl,
              show s.buffer.head? = some f from by rw [hb]; rfl] at hl
            simp at hl
            have : ArcEager.headOf s t0 = none := hl.2
            rw [hte, hhead] at this
            cases this
          rw [headOf_set_ne s s2 t0 (some (f, lbl)) hs2 i ht0i]
          exact hhead
    | reduce =>
      cases hst : s.stack with
      | nil => rw [hst] at happ; simp at happ
      | cons t0 srest =>
        rw [hst] at happ
        have hs2 : s2 = { s with stack := srest } := by simpa using happ.symm
        rw [hs2]
        exact hhead
    | brk =>
      cases hb : s.buffer with
      | nil => rw [hb] at happ; simp at happ
      | cons f rest =>
        rw [hb] at happ
        have hs2 : s2 = { s with stack := [s.n], buffer := f :: rest, bounds := s.bounds.erase f } := by
          simpa using happ.symm
        rw [hs2]
        exact hhead
  · rw [if_neg hl] at happ
    simp at happ

theorem headOf_congr (s s2 : ArcEager.PState) (hh : s2.heads = s.heads) (i : Nat) :
    ArcEager.headOf s2 i = ArcEager.headOf s i := by
  unfold ArcEager.headOf
  rw [hh]

theorem applyT_InvHeads (s s2 : ArcEager.PState) (t : ArcEager.PTrans)
    (hinv : ArcEager.InvHeads s) (happ : ArcEager.applyT s t = some s2) :
    ArcEager.InvHeads s2 := by
  obtain ⟨hnd, hlt, hdisj, hnone, hlen⟩ := hinv
  unfold ArcEager.applyT at happ
  by_cases hl : ArcEager.legal s t = true
  · rw [if_pos hl] at happ
    cases t with
    | shift =>
      cases hb : s.buffer with
      | nil => rw [hb] at happ; simp at happ
      | cons f rest =>
        rw [hb] at happ
        have hs2 : s2 = { s with stack := f :: s.stack, buffer := rest } := by
          simpa using happ.symm
        subst hs2
        have hnds : (f :: rest).Nodup := hb ▸ hnd
        refine ⟨(List.nodup_cons.mp hnds).2, ?_, ?_, ?_, hlen⟩
        · intro i hi
          exact hlt i (by rw [hb]; exact List.mem_cons_of_mem _ hi)
        · intro i hi
          rcases List.mem_cons.mp hi with hif | his
          · rw [hif]; exact (List.nodup_cons.mp hnds).1
          · intro hir
            exact hdisj i his (by rw [hb]; exact List.mem_cons_of_mem _ hir)
        · intro i hi
          exact hnone i (by rw [hb]; exact List.mem_cons_of_mem _ hi)
    | rightArc lbl =>
      cases hb : s.buffer with
      | nil => rw [hb] at happ; simp at happ
      | cons f rest =>
        cases hst : s.stack with
        | nil => rw [hb, hst] at happ; simp at happ
        | cons t0 srest =>
          rw [hb, hst] at happ
          have hs2 : s2 = { s with heads := s.heads.set f (some (t0, lbl)), stack := f :: t0 :: srest, buffer := rest } := by
            simpa using happ.symm
          subst hs2
          have hnds : (f :: rest).Nodup := hb ▸ hnd
          refine ⟨(List.nodup_cons.mp hnds).2, ?_, ?_, ?_, ?_⟩
          · intro i hi
            exact hlt i (by rw [hb]; exact List.mem_cons_of_mem _ hi)
          · intro i hi
            rcases List.mem_cons.mp hi with hif | his
            · rw [hif]; exact (List.nodup_cons.mp hnds).1
            · intro hir
              exact hdisj i (by rw [hst]; exact his)
                (by rw [hb]; exact List.mem_cons_of_mem _ hir)
          · intro i hi
            have hfi : f ≠ i := by
              intro hfe
              exact (List.nodup_cons.mp hnds).1 (hfe ▸ hi)
            rw [headOf_set_ne s _ f (some (t0, lbl)) rfl i hfi]
            exact hnone i (by rw [hb]; exact List.mem_cons_of_mem _ hi)
          · show (s.heads.set f (some (t0, lbl))).length = s.n
            rw [List.length_set]
            exact hlen
    | leftArc lbl =>
      cases hst : s.stack with
      | nil => rw [hst] at happ; simp at happ
      | cons t0 srest =>
        cases hb : s.buffer with
        | nil => rw [hst, hb] at happ; simp at happ
        | cons f rest =>
          rw [hst, hb] at happ
          have hs2 : s2 = { s with heads := s.heads.set t0 (some (f, lbl)), stack := srest, buffer := f :: rest } := by
            simpa using happ.symm
          subst hs2
          have ht0nb : t0 ∉ s.buffer :=
            hdisj t0 (by rw [hst]; exact List.mem_cons_self _ _)
          refine ⟨hb ▸ hnd, ?_, ?_, ?_, ?_⟩
          · intro i hi
            exact hlt i (by rw [hb]; exact hi)
          · intro i hi hib
            exact hdisj i (by rw [hst]; exact List.mem_cons_of_mem _ hi)
              (by rw [hb]; exact hib)
          · intro i hi
            have ht0i : t0 ≠ i := by
              intro hte
              exact ht0nb (hte ▸ (by rw [hb]; exact hi))
            rw [headOf_set_ne s _ t0 (some (f, lbl)) rfl i ht0i]
            exact hnone i (by rw [hb]; exact hi)
          · show (s.heads.set t0 (some (f, lbl))).length = s.n
            rw [List.length_set]
            exact hlen
    | reduce =>
      cases hst : s.stack with
      | nil => rw [hst] at happ; simp at happ
      | cons t0 srest =>
        rw [hst] at happ
        have hs2 : s2 = { s with stack := srest } := by simpa using happ.symm
        subst hs2
        refine ⟨hnd, hlt, ?_, ?_, hlen⟩
        · intro i hi
          exact hdisj i (by rw [hst]; exact List.mem_cons_of_mem _ hi)
        · intro i hi
          exact hnone i hi
    | brk =>
      cases hb : s.buffer with
      | nil => rw [hb] at happ; simp at happ
      | cons f rest =>
        rw [hb] at happ
        have hs2 : s2 = { s with stack := [s.n], buffer := f :: rest, bounds := s.bounds.erase f } := by
          simpa using happ.symm
        subst hs2
        refine ⟨hb ▸ hnd, ?_, ?_, ?_, hlen⟩
        · intro i hi
          exact hlt i (by rw [hb]; exact hi)
        · intro i hi hib
          have hin : i = s.n := by simpa using hi
          have : s.n < s.n := hlt s.n (by rw [hb]; exact hin ▸ hib)
          exact absurd this (Nat.lt_irrefl _)
        · intro i hi
          exact hnone i (by rw [hb]; exact hi)
  · rw [if_neg hl] at happ
    simp at happ

theorem runFrom_InvHeads (ts : List ArcEager.PTrans) :
    ∀ s s2 : ArcEager.PState, ArcEager.runFrom s ts = some s2 →
      ArcEager.InvHeads s → ArcEager.InvHeads s2 := by
  induction ts with
  | nil =>
    intro s s2 h hinv
    have hs : s = s2 := by simpa [ArcEager.runFrom] using h
    exact hs ▸ hinv
  | cons t ts ih =>
    intro s s2 h hinv
    unfold ArcEager.runFrom at h
    cases happ : ArcEager.applyT s t with
    | none =>
      rw [happ] at h
      exact Option.noConfusion h
    | some s1 =>
      rw [happ] at h
      exact ih s1 s2 h (applyT_InvHeads s s1 t hinv happ)

/-- C5: single-head invariant of the arc-eager step relation (modelled
from the spec, §4.4).  Along any legal transition sequence from an
initial ParseState, once a head has been recorded for a token by
LEFT-ARC or RIGHT-ARC, no later legal transition changes it: any head
assignment present in a reachable state persists through every further
legal transition. -/
theorem arc_eager_single_head (n : Nat) (bounds : List Nat)
    (ts : List ArcEager.PTrans) (s s2 : ArcEager.PState) (t : ArcEager.PTrans)
    (hrun : ArcEager.runFrom (ArcEager.init n bounds) ts = some s)
    (happ : ArcEager.applyT s t = some s2) :
    ∀ i h, ArcEager.headOf s i = some h → ArcEager.headOf s2 i = some h :=
  applyT_head_mono s s2 t
    (runFrom_InvHeads ts (ArcEager.init n bounds) s hrun (init_InvHeads n bounds))
    happ

/-- Witness for C5: from the initial state on two tokens, RIGHT-ARC
assigns head (2, 5) to token 0; after a further SHIFT the assignment is
unchanged. -/
theorem arc_eager_single_head_witness :
    ArcEager.runFrom (ArcEager.init 2 []) [ArcEager.PTrans.rightArc 5]
      = some ⟨2, [0, 2], [1], [some (2, 5), none], []⟩ ∧
    ArcEager.applyT ⟨2, [0, 2], [1], [some (2, 5), none], []⟩ ArcEager.PTrans.shift
      = some ⟨2, [1, 0, 2], [], [some (2, 5), none], []⟩ ∧
    ArcEager.headOf ⟨2, [1, 0, 2], [], [some (2, 5), none], []⟩ 0 = some (2, 5) :=
  ⟨by decide, by decide,
    arc_eager_single_head 2 [] [ArcEager.PTrans.rightArc 5]
      ⟨2, [0, 2], [1], [some (2, 5), none], []⟩
      ⟨2, [1, 0, 2], [], [some (2, 5), none], []⟩
      ArcEager.PTrans.shift (by decide) (by decide) 0 (2, 5) (by decide)⟩

theorem applyT_none_of_anyLegal_false (s : ArcEager.PState)
    (h : ArcEager.anyLegal s = false) (t : ArcEager.PTrans) :
    ArcEager.applyT s t = none := by
  unfold ArcEager.anyLegal at h
  simp only [Bool.or_eq_false_iff] at h
  obtain ⟨⟨⟨⟨hsh, hla⟩, hra⟩, hre⟩, hbk⟩ := h
  unfold ArcEager.applyT
  cases t with
  | shift => rw [if_neg (by rw [hsh]; exact Bool.false_ne_true)]
  | leftArc lbl =>
    have : ArcEager.legal s (ArcEager.PTrans.leftArc lbl) = false := hla
    rw [if_neg (by rw [this]; exact Bool.false_ne_true)]
  | rightArc lbl =>
    have : ArcEager.legal s (ArcEager.PTrans.rightArc lbl) = false := hra
    rw [if_neg (by rw [this]; exact Bool.false_ne_true)]
  | reduce => rw [if_neg (by rw [hre]; exact Bool.false_ne_true)]
  | brk => rw [if_neg (by rw [hbk]; exact Bool.false_ne_true)]

theorem applyT_step (s s2 : ArcEager.PState) (t : ArcEager.PTrans)
    (hinv : ArcEager.InvRun s) (happ : ArcEager.applyT s t = some s2) :
    ArcEager.InvRun s2 ∧ s2.n = s.n ∧ ArcEager.phi s2 + 1 ≤ ArcEager.phi s := by
  obtain ⟨hbd, hne, hlast, hlen, hcov⟩ := hinv
  unfold ArcEager.applyT at happ
  by_cases hl : ArcEager.legal s t = true
  · rw [if_pos hl] at happ
    cases t with
    | shift =>
      cases hb : s.buffer with
      | nil => rw [hb] at happ; simp at happ
      | cons f rest =>
        rw [hb] at happ
        have hs2 : s2 = { s with stack := f :: s.stack, buffer := rest } := by
          simpa using happ.symm
        subst hs2
        refine ⟨⟨hbd, List.cons_ne_nil _ _, ?_, hlen, ?_⟩, rfl, ?_⟩
        · show (f :: s.stack).getLast? = some s.n
          cases hstk : s.stack with
          | nil => exact absurd hstk hne
          | cons y ys =>
            rw [List.getLast?_cons_cons]
            rw [hstk] at hlast
            exact hlast
        · intro i hi
          rcases hcov i hi with hib | his | hh
          · rw [hb] at hib
            rcases List.mem_cons.mp hib with hif | hir
            · exact Or.inr (Or.inl (hif ▸ List.mem_cons_self _ _))
            · exact Or.inl hir
          · exact Or.inr (Or.inl (List.mem_cons_of_mem _ his))
          · exact Or.inr (Or.inr hh)
        · unfold ArcEager.phi
          simp [hb]
          omega
    | rightArc lbl =>
      cases hb : s.buffer with
      | nil => rw [hb] at happ; simp at happ
      | cons f rest =>
        cases hstk : s.stack with
        | nil => rw [hb, hstk] at happ; simp at happ
        | cons t0 srest =>
          rw [hb, hstk] at happ
          have hs2 : s2 = { s with heads := s.heads.set f (some (t0, lbl)), stack := f :: t0 :: srest, buffer := rest } := by
            simpa using happ.symm
          subst hs2
          refine ⟨⟨hbd, List.cons_ne_nil _ _, ?_, ?_, ?_⟩, rfl, ?_⟩
          · show (f :: t0 :: srest).getLast? = some s.n
            rw [List.getLast?_cons_cons]
            rw [hstk] at hlast
            exact hlast
          · show (s.heads.set f (some (t0, lbl))).length = s.n
            rw [List.length_set]
            exact hlen
          · intro i hi
            by_cases hif : i = f
            · refine Or.inr (Or.inr ?_)
              show (ArcEager.headOf { s with heads := s.heads.set f (some (t0, lbl)), stack := f :: t0 :: srest, buffer := rest } i).isSome = true
              unfold ArcEager.headOf
              have hflen : f < s.heads.length := by
                rw [hlen]; exact hif ▸ hi
              rw [show ({ s with heads := s.heads.set f (some (t0, lbl)), stack := f :: t0 :: srest, buffer := rest } : ArcEager.PState).heads = s.heads.set f (some (t0, lbl)) from rfl]
              rw [hif, List.getElem?_set_self hflen]
              rfl
            · rcases hcov i hi with hib | his | hh
              · rw [hb] at hib
                rcases List.mem_cons.mp hib with hif2 | hir
                · exact absurd hif2 hif
                · exact Or.inl hir
              · rw [hstk] at his
                exact Or.inr (Or.inl (List.mem_cons_of_mem _ his))
              · refine Or.inr (Or.inr ?_)
                rw [headOf_set_ne s _ f (some (t0, lbl)) rfl i (fun he => hif he.symm)]
                exact hh
          · unfold ArcEager.phi
            simp [hb, hstk, List.length_set]
            omega
    | leftArc lbl =>
      cases hstk : s.stack with
      | nil => rw [hstk] at happ; simp at happ
      | cons t0 srest =>
        cases hb : s.buffer with
        | nil => rw [hstk, hb] at happ; simp at happ
        | cons f rest =>
          rw [hstk, hb] at happ
          have hs2 : s2 = { s with heads := s.heads.set t0 (some (f, lbl)), stack := srest, buffer := f :: rest } := by
            simpa using happ.symm
          subst hs2
          have ht0n : t0 ≠ s.n := by
            unfold ArcEager.legal at hl
            rw [show s.stack.head? = some t0 from by rw [hstk]; rfl,
              show s.buffer.head? = some f from by rw [hb]; rfl] at hl
            simp at hl
            exact hl.1
          have hsr : srest ≠ [] := by
            intro hemp
            rw [hstk, hemp] at hlast
            rw [List.getLast?_singleton] at hlast
            exact ht0n (Option.some.inj hlast)
          refine ⟨⟨hbd, hsr, ?_, ?_, ?_⟩, rfl, ?_⟩
          · show srest.getLast? = some s.n
            cases hsre : srest with
            | nil => exact absurd hsre hsr
            | cons y ys =>
              rw [hstk, hsre] at hlast
              rw [List.getLast?_cons_cons] at hlast
              exact hlast
          · show (s.heads.set t0 (some (f, lbl))).length = s.n
            rw [List.length_set]
            exact hlen
          · intro i hi
            by_cases hit : i = t0
            · refine Or.inr (Or.inr ?_)
              show (ArcEager.headOf { s with heads := s.heads.set t0 (some (f, lbl)), stack := srest, buffer := f :: rest } i).isSome = true
              unfold ArcEager.headOf
              have htlen : t0 < s.heads.length := by
                rw [hlen]; exact hit ▸ hi
              rw [show ({ s with heads := s.heads.set t0 (some (f, lbl)), stack := srest, buffer := f :: rest } : ArcEager.PState).heads = s.heads.set t0 (some (f, lbl)) from rfl]
              rw [hit, List.getElem?_set_self htlen]
              rfl
            · rcases hcov i hi with hib | his | hh
              · rw [hb] at hib
                exact Or.inl hib
              · rw [hstk] at his
                rcases List.mem_cons.mp his with hit2 | hir
                · exact absurd hit2 hit
                · exact Or.inr (Or.inl hir)
              · refine Or.inr (Or.inr ?_)
                rw [headOf_set_ne s _ t0 (some (f, lbl)) rfl i (fun he => hit he.symm)]
                exact hh
          · unfold ArcEager.phi
            simp [hb, hstk, List.length_set]
            omega
    | reduce =>
      cases hstk : s.stack with
      | nil => rw [hstk] at happ; simp at happ
      | cons t0 srest =>
        rw [hstk] at happ
        have hs2 : s2 = { s with stack := srest } := by simpa using happ.symm
        subst hs2
        have hhd : (ArcEager.headOf s t0).isSome = true := by
          unfold ArcEager.legal at hl
          rw [show s.stack.head? = some t0 from by rw [hstk]; rfl] at hl
          exact hl
        have ht0n : t0 ≠ s.n := by
          intro he
          have hout : s.heads[s.n]? = none := List.getElem?_eq_none (by rw [hlen])
          have : ArcEager.headOf s s.n = none := by
            unfold ArcEager.headOf
            rw [hout]
          rw [he, this] at hhd
          cases hhd
        have hsr : srest ≠ [] := by
          intro hemp
          rw [hstk, hemp] at hlast
          rw [List.getLast?_singleton] at hlast
          exact ht0n (Option.some.inj hlast)
        refine ⟨⟨hbd, hsr, ?_, hlen, ?_⟩, rfl, ?_⟩
        · show srest.getLast? = some s.n
          cases hsre : srest with
          | nil => exact absurd hsre hsr
          | cons y ys =>
            rw [hstk, hsre] at hlast
            rw [List.getLast?_cons_cons] at hlast
            exact hlast
        · intro i hi
          by_cases hit : i = t0
          · exact Or.inr (Or.inr (hit ▸ hhd))
          · rcases hcov i hi with hib | his | hh
            · exact Or.inl hib
            · rw [hstk] at his
              rcases List.mem_cons.mp his with hit2 | hir
              · exact absurd hit2 hit
              · exact Or.inr (Or.inl hir)
            · exact Or.inr (Or.inr hh)
        · unfold ArcEager.phi
          simp [hstk]
          omega
    | brk =>
      exfalso
      unfold ArcEager.legal at hl
      cases hbf : s.buffer.head? with
      | none => rw [hbf] at hl; exact Bool.false_ne_true hl
      | some f =>
        rw [hbf, hbd] at hl
        simp at hl
  · rw [if_neg hl] at happ
    simp at happ

theorem runFrom_InvRun (ts : List ArcEager.PTrans) :
    ∀ s s2 : ArcEager.PState, ArcEager.runFrom s ts = some s2 →
      ArcEager.InvRun s →
      ArcEager.InvRun s2 ∧ s2.n = s.n ∧
        ts.length + ArcEager.phi s2 ≤ ArcEager.phi s := by
  induction ts with
  | nil =>
    intro s s2 h hinv
    have hs : s = s2 := by simpa [ArcEager.runFrom] using h
    subst hs
    exact ⟨hinv, rfl, by simp⟩
  | cons t ts ih =>
    intro s s2 h hinv
    unfold ArcEager.runFrom at h
    cases happ : ArcEager.applyT s t with
    | none =>
      rw [happ] at h
      exact Option.noConfusion h
    | some s1 =>
      rw [happ] at h
      obtain ⟨hinv1, hn1, hphi1⟩ := applyT_step s s1 t hinv happ
      obtain ⟨hinv2, hn2, hphi2⟩ := ih s1 s2 h hinv1
      refine ⟨hinv2, hn2.trans hn1, ?_⟩
      simp only [List.length_cons]
      omega

theorem init_InvRun (n : Nat) : ArcEager.InvRun (ArcEager.init n []) := by
  refine ⟨rfl, by simp [ArcEager.init], by simp [ArcEager.init], by simp [ArcEager.init], ?_⟩
  intro i hi
  exact Or.inl (by simp [ArcEager.init]; exact hi)

theorem phi_init (n : Nat) : ArcEager.phi (ArcEager.init n []) = 2 * n + 1 := by
  simp [ArcEager.phi, ArcEager.init]

/-- C4 (amended): from the initial configuration on `n` tokens with no
sentence boundaries, every legal transition sequence has length at most
`2*n` (the measure `phi` strictly decreases from `2*n + 1` and stays
positive), and whenever a run reaches the terminal configuration (empty
buffer, stack holding only the artificial root), every token has an
assigned head.  The as-stated claim that the loop always REACHES the
terminal configuration is refuted by `arc_eager_stuck_nonterminal`. -/
theorem arc_eager_bounded_run (n : Nat) (ts : List ArcEager.PTrans) (s : ArcEager.PState)
    (hrun : ArcEager.runFrom (ArcEager.init n []) ts = some s) :
    ts.length ≤ 2 * n ∧
      (ArcEager.isTerminal s = true →
        ∀ i, i < n → (ArcEager.headOf s i).isSome = true) := by
  obtain ⟨hinv, hn, hphi⟩ := runFrom_InvRun ts (ArcEager.init n []) s hrun (init_InvRun n)
  obtain ⟨hbd, hne, hlast, hlen, hcov⟩ := hinv
  constructor
  · have h1 : 1 ≤ s.stack.length := List.length_pos.mpr hne
    have h0 : ArcEager.phi (ArcEager.init n []) = 2 * n + 1 := phi_init n
    have h2 : s.stack.length ≤ ArcEager.phi s := by unfold ArcEager.phi; omega
    omega
  · intro hterm i hi
    unfold ArcEager.isTerminal at hterm
    simp at hterm
    obtain ⟨hbe, hse⟩ := hterm
    have hsn : s.n = n := hn
    rcases hcov i (by rw [hsn]; exact hi) with hib | his | hh
    · rw [hbe] at hib
      cases hib
    · rw [hse] at his
      have hin : i = s.n := by simpa using his
      rw [hsn] at hin
      omega
    · exact hh

/-- Counterexample to C4 as stated: on a single token, the legal run
SHIFT ends in a state where no transition at all is legal, yet the
configuration is not terminal and the token has no head — the driver
does not always reach the terminal configuration, and a token can end
headless. -/
theorem arc_eager_stuck_nonterminal :
    ArcEager.runFrom (ArcEager.init 1 []) [ArcEager.PTrans.shift]
      = some ⟨1, [0, 1], [], [none], []⟩ ∧
    (∀ t : ArcEager.PTrans, ArcEager.applyT ⟨1, [0, 1], [], [none], []⟩ t = none) ∧
    ArcEager.isTerminal ⟨1, [0, 1], [], [none], []⟩ = false ∧
    ArcEager.headOf ⟨1, [0, 1], [], [none], []⟩ 0 = none := by
  refine ⟨by decide, ?_, by decide, by decide⟩
  intro t
  exact applyT_none_of_anyLegal_false _ (by decide) t

/-- Witness for C4: the two-transition run RIGHT-ARC; REDUCE on one
token reaches the terminal configuration within the `2*n` bound, with
the single token headed. -/
theorem arc_eager_bounded_run_witness :
    ArcEager.runFrom (ArcEager.init 1 []) [ArcEager.PTrans.rightArc 0, ArcEager.PTrans.reduce]
      = some ⟨1, [1], [], [some (1, 0)], []⟩ ∧
    ([ArcEager.PTrans.rightArc 0, ArcEager.PTrans.reduce].length ≤ 2 * 1 ∧
      (ArcEager.isTerminal ⟨1, [1], [], [some (1, 0)], []⟩ = true →
        ∀ i, i < 1 → (ArcEager.headOf ⟨1, [1], [], [some (1, 0)], []⟩ i).isSome = true)) :=
  ⟨by decide,
    arc_eager_bounded_run 1 [ArcEager.PTrans.rightArc 0, ArcEager.PTrans.reduce]
      ⟨1, [1], [], [some (1, 0)], []⟩ (by decide)⟩

theorem runsAux_flatten :
    ∀ (c acc : List Char), (SpecTok.runsAux acc c).flatten = acc.reverse ++ c := by
  intro c
  induction c with
  | nil =>
    intro acc
    cases acc with
    | nil => rfl
    | cons a as => simp [SpecTok.runsAux]
  | cons ch rest ih =>
    intro acc
    cases acc with
    | nil =>
      show (SpecTok.runsAux [ch] rest).flatten = [] ++ ch :: rest
      rw [ih [ch]]
      rfl
    | cons a as =>
      show (if (SpecTok.isWsChar a == SpecTok.isWsChar ch) = true then
          SpecTok.runsAux (ch :: a :: as) rest
        else (a :: as).reverse :: SpecTok.runsAux [ch] rest).flatten = _
      by_cases hs : (SpecTok.isWsChar a == SpecTok.isWsChar ch) = true
      · rw [if_pos hs, ih (ch :: a :: as)]
        simp
      · rw [if_neg hs]
        simp only [List.flatten_cons, ih [ch]]
        simp

theorem runsAux_ne_nil :
    ∀ (c acc : List Char), ∀ r ∈ SpecTok.runsAux acc c, r ≠ [] := by
  intro c
  induction c with
  | nil =>
    intro acc r hr
    cases acc with
    | nil => cases hr
    | cons a as =>
      have : r = (a :: as).reverse := by simpa [SpecTok.runsAux] using hr
      rw [this]
      simp
  | cons ch rest ih =>
    intro acc r hr
    cases acc with
    | nil => exact ih [ch] r hr
    | cons a as =>
      have hr2 : r ∈ (if (SpecTok.isWsChar a == SpecTok.isWsChar ch) = true then
          SpecTok.runsAux (ch :: a :: as) rest
        else (a :: as).reverse :: SpecTok.runsAux [ch] rest) := hr
      by_cases hs : (SpecTok.isWsChar a == SpecTok.isWsChar ch) = true
      · rw [if_pos hs] at hr2
        exact ih (ch :: a :: as) r hr2
      · rw [if_neg hs] at hr2
        rcases List.mem_cons.mp hr2 with hre | hrm
        · rw [hre]; simp
        · exact ih [ch] r hrm

theorem findExc_flatten (excs : List (List Char × List (List Char)))
    (c : List Char) (subs : List (List Char))
    (hexc : ∀ kv ∈ excs, kv.2.flatten = kv.1)
    (h : SpecTok.findExc excs c = some subs) : subs.flatten = c := by
  obtain ⟨kv, hmem, hkv⟩ := List.exists_of_findSome?_eq_some h
  by_cases hk : kv.1 = c
  · rw [if_pos hk] at hkv
    have hsubs : kv.2 = subs := Option.some.inj hkv
    rw [← hsubs, hexc kv hmem, hk]
  · rw [if_neg hk] at hkv
    cases hkv

theorem longestPre_spec (ps : List (List Char)) (c p : List Char)
    (h : SpecTok.longestPre ps c = some p) :
    (!p.isEmpty && p.isPrefixOf c) = true := by
  induction ps with
  | nil => simp [SpecTok.longestPre] at h
  | cons hd tl ih =>
    simp only [SpecTok.longestPre] at h
    by_cases hc : (!hd.isEmpty && hd.isPrefixOf c) = true
    · rw [if_pos hc] at h
      cases hrest : SpecTok.longestPre tl c with
      | none =>
        rw [hrest] at h
        have : hd = p := Option.some.inj h
        rw [← this]
        exact hc
      | some q =>
        rw [hrest] at h
        have h2 : (if q.length < hd.length then some hd else some q) = some p := h
        by_cases hq : q.length < hd.length
        · rw [if_pos hq] at h2
          have : hd = p := Option.some.inj h2
          rw [← this]
          exact hc
        · rw [if_neg hq] at h2
          have hqp : q = p := Option.some.inj h2
          exact ih (hqp ▸ hrest)
    · rw [if_neg hc] at h
      exact ih h

theorem longestSuf_spec (ps : List (List Char)) (c p : List Char)
    (h : SpecTok.longestSuf ps c = some p) :
    (!p.isEmpty && p.isSuffixOf c) = true := by
  induction ps with
  | nil => simp [SpecTok.longestSuf] at h
  | cons hd tl ih =>
    simp only [SpecTok.longestSuf] at h
    by_cases hc : (!hd.isEmpty && hd.isSuffixOf c) = true
    · rw [if_pos hc] at h
      cases hrest : SpecTok.longestSuf tl c with
      | none =>
        rw [hrest] at h
        have : hd = p := Option.some.inj h
        rw [← this]
        exact hc
      | some q =>
        rw [hrest] at h
        have h2 : (if q.length < hd.length then some hd else some q) = some p := h
        by_cases hq : q.length < hd.length
        · rw [if_pos hq] at h2
          have : hd = p := Option.some.inj h2
          rw [← this]
          exact hc
        · rw [if_neg hq] at h2
          have hqp : q = p := Option.some.inj h2
          exact ih (hqp ▸ hrest)
    · rw [if_neg hc] at h
      exact ih h

theorem isPrefixOf_append_drop (p c : List Char) (h : p.isPrefixOf c = true) :
    p ++ c.drop p.length = c := by
  obtain ⟨t, ht⟩ := List.isPrefixOf_iff_prefix.mp h
  rw [← ht, List.drop_left]

theorem isSuffixOf_take_append (q c : List Char) (h : q.isSuffixOf c = true) :
    c.take (c.length - q.length) ++ q = c := by
  obtain ⟨t, ht⟩ := List.isSuffixOf_iff_suffix.mp h
  have hlen : c.length - q.length = t.length := by
    rw [← ht, List.length_append]
    omega
  rw [hlen, ← ht, List.take_left]

theorem stripLoop_flatten (cfg : SpecTok.Config) :
    ∀ (fuel : Nat) (core : List Char),
      (SpecTok.stripLoop cfg fuel core).1.flatten ++
        ((SpecTok.stripLoop cfg fuel core).2.1 ++
          (SpecTok.stripLoop cfg fuel core).2.2.flatten) = core := by
  intro fuel
  induction fuel with
  | zero => intro core; simp [SpecTok.stripLoop]
  | succ fuel ih =>
    intro core
    by_cases he : (SpecTok.findExc cfg.exceptions core).isSome = true
    · simp [SpecTok.stripLoop, he]
    · cases hp : SpecTok.longestPre cfg.prefixes core with
      | some p =>
        have hred : SpecTok.stripLoop cfg (fuel + 1) core =
            ((p :: (SpecTok.stripLoop cfg fuel (core.drop p.length)).1,
              (SpecTok.stripLoop cfg fuel (core.drop p.length)).2.1,
              (SpecTok.stripLoop cfg fuel (core.drop p.length)).2.2)) := by
          simp [SpecTok.stripLoop, he, hp]
        rw [hred]
        dsimp only
        simp only [List.flatten_cons]
        rw [List.append_assoc, ih (core.drop p.length)]
        exact isPrefixOf_append_drop p core
          (Bool.and_elim_right (longestPre_spec cfg.prefixes core p hp))
      | none =>
        cases hq : SpecTok.longestSuf cfg.suffixes core with
        | some q =>
          have hred : SpecTok.stripLoop cfg (fuel + 1) core =
              (((SpecTok.stripLoop cfg fuel (core.take (core.length - q.length))).1,
                (SpecTok.stripLoop cfg fuel (core.take (core.length - q.length))).2.1,
                (SpecTok.stripLoop cfg fuel (core.take (core.length - q.length))).2.2 ++ [q])) := by
            simp [SpecTok.stripLoop, he, hp, hq]
          rw [hred]
          dsimp only
          have h1 := ih (core.take (core.length - q.length))
          have h2 := isSuffixOf_take_append q core
            (Bool.and_elim_right (longestSuf_spec cfg.suffixes core q hq))
          rw [← h1] at h2
          simpa [List.flatten_append, List.append_assoc] using h2
        | none => simp [SpecTok.stripLoop, he, hp, hq]

theorem findInfixAt_spec (infixes : List (List Char)) (c m : List Char)
    (h : SpecTok.findInfixAt infixes c = some m) :
    (!m.isEmpty && m.isPrefixOf c) = true := by
  obtain ⟨x, hmem, hx⟩ := List.exists_of_findSome?_eq_some h
  by_cases hc : (!x.isEmpty && x.isPrefixOf c) = true
  · rw [if_pos hc] at hx
    exact (Option.some.inj hx) ▸ hc
  · rw [if_neg hc] at hx
    cases hx

theorem infixScan_flatten (infixes : List (List Char)) :
    ∀ (fuel : Nat) (acc c : List Char),
      (SpecTok.infixScan infixes fuel acc c).flatten = acc.reverse ++ c := by
  intro fuel
  induction fuel with
  | zero =>
    intro acc c
    by_cases hb : (acc.isEmpty && c.isEmpty) = true
    · obtain ⟨ha, hc⟩ := Bool.and_eq_true_iff.mp hb
      have ha2 : acc = [] := by simpa using ha
      have hc2 : c = [] := by simpa using hc
      simp [SpecTok.infixScan, ha2, hc2]
    · simp only [SpecTok.infixScan]
      rw [if_neg hb]
      simp
  | succ fuel ih =>
    intro acc c
    cases c with
    | nil =>
      by_cases ha : acc.isEmpty = true
      · have ha2 : acc = [] := by simpa using ha
        simp [SpecTok.infixScan, ha2]
      · simp only [SpecTok.infixScan]
        rw [if_neg ha]
        simp
    | cons ch rest =>
      cases hf : SpecTok.findInfixAt infixes (ch :: rest) with
      | some m =>
        have hred : SpecTok.infixScan infixes (fuel + 1) acc (ch :: rest) =
            (if acc.isEmpty then [] else [acc.reverse]) ++
              m :: SpecTok.infixScan infixes fuel [] ((ch :: rest).drop m.length) := by
          simp [SpecTok.infixScan, hf]
        rw [hred]
        simp only [List.flatten_append, List.flatten_cons]
        rw [ih [] ((ch :: rest).drop m.length)]
        have hm : m ++ (ch :: rest).drop m.length = ch :: rest :=
          isPrefixOf_append_drop m (ch :: rest)
            (Bool.and_elim_right (findInfixAt_spec infixes (ch :: rest) m hf))
        by_cases ha : acc.isEmpty = true
        · have ha2 : acc = [] := by simpa using ha
          rw [if_pos ha]
          simp [ha2, hm]
        · rw [if_neg ha]
          simp only [List.flatten_cons, List.flatten_nil, List.append_nil,
            List.reverse_nil, List.nil_append]
          rw [hm]
      | none =>
        have hred : SpecTok.infixScan infixes (fuel + 1) acc (ch :: rest) =
            SpecTok.infixScan infixes fuel (ch :: acc) rest := by
          simp [SpecTok.infixScan, hf]
        rw [hred, ih (ch :: acc) rest]
        simp

theorem tokenizeChunk_flatten (cfg : SpecTok.Config) (chunk : List Char)
    (hexc : ∀ kv ∈ cfg.exceptions, kv.2.flatten = kv.1) :
    (SpecTok.tokenizeChunk cfg chunk).flatten = chunk := by
  cases h1 : SpecTok.findExc cfg.exceptions chunk with
  | some subs =>
    have hred : SpecTok.tokenizeChunk cfg chunk = subs := by
      simp [SpecTok.tokenizeChunk, h1]
    rw [hred]
    exact findExc_flatten cfg.exceptions chunk subs hexc h1
  | none =>
    cases h2 : SpecTok.findExc cfg.exceptions
        (SpecTok.stripLoop cfg (chunk.length + 1) chunk).2.1 with
    | some subs =>
      have hred : SpecTok.tokenizeChunk cfg chunk =
          (SpecTok.stripLoop cfg (chunk.length + 1) chunk).1 ++ subs ++
            (SpecTok.stripLoop cfg (chunk.length + 1) chunk).2.2 := by
        simp [SpecTok.tokenizeChunk, h1, h2]
      rw [hred]
      simp only [List.flatten_append]
      rw [findExc_flatten cfg.exceptions _ subs hexc h2]
      rw [List.append_assoc]
      exact stripLoop_flatten cfg (chunk.length + 1) chunk
    | none =>
      have hred : SpecTok.tokenizeChunk cfg chunk =
          (SpecTok.stripLoop cfg (chunk.length + 1) chunk).1 ++
            SpecTok.infixScan cfg.infixes
              ((SpecTok.stripLoop cfg (chunk.length + 1) chunk).2.1.length + 1) []
              (SpecTok.stripLoop cfg (chunk.length + 1) chunk).2.1 ++
            (SpecTok.stripLoop cfg (chunk.length + 1) chunk).2.2 := by
        simp [SpecTok.tokenizeChunk, h1, h2]
      rw [hred]
      simp only [List.flatten_append]
      rw [infixScan_flatten cfg.infixes _ [] _]
      simp only [List.reverse_nil, List.nil_append]
      rw [List.append_assoc]
      exact stripLoop_flatten cfg (chunk.length + 1) chunk

theorem detokL_append (a b : List (List Char × Bool)) :
    SpecTok.detokL (a ++ b) = SpecTok.detokL a ++ SpecTok.detokL b := by
  simp [SpecTok.detokL]

theorem detokL_mapFalse (ts : List (List Char)) :
    SpecTok.detokL (ts.map (fun t => (t, false))) = ts.flatten := by
  induction ts with
  | nil => rfl
  | cons t rest ih =>
    have hstep : SpecTok.detokL ((t, false) :: rest.map (fun t => (t, false))) =
        (t ++ []) ++ SpecTok.detokL (rest.map (fun t => (t, false))) := rfl
    show SpecTok.detokL ((t, false) :: rest.map (fun t => (t, false))) = (t :: rest).flatten
    rw [hstep, ih]
    simp

theorem detokL_setLast :
    ∀ ts : List (List Char), ts ≠ [] →
      SpecTok.detokL (SpecTok.setLast (ts.map (fun t => (t, false)))) =
        ts.flatten ++ [' '] := by
  intro ts
  induction ts with
  | nil => intro h; exact absurd rfl h
  | cons t rest ih =>
    intro _
    cases rest with
    | nil => simp [SpecTok.setLast, SpecTok.detokL]
    | cons r2 rest2 =>
      have hstep : SpecTok.setLast ((t, false) :: (r2, false) ::
          rest2.map (fun t => (t, false))) =
          (t, false) :: SpecTok.setLast ((r2, false) :: rest2.map (fun t => (t, false))) := rfl
      have hd : SpecTok.detokL ((t, false) :: SpecTok.setLast ((r2, false) ::
          rest2.map (fun t => (t, false)))) =
          (t ++ []) ++ SpecTok.detokL (SpecTok.setLast ((r2, false) ::
            rest2.map (fun t => (t, false)))) := rfl
      show SpecTok.detokL (SpecTok.setLast ((t, false) :: (r2, false) ::
          rest2.map (fun t => (t, false)))) = (t :: r2 :: rest2).flatten ++ [' ']
      rw [hstep, hd]
      have ihr := ih (List.cons_ne_nil r2 rest2)
      have ihr2 : SpecTok.detokL (SpecTok.setLast ((r2, false) ::
          rest2.map (fun t => (t, false)))) = (r2 :: rest2).flatten ++ [' '] := ihr
      rw [ihr2]
      simp

theorem detokL_goRuns (cfg : SpecTok.Config)
    (hexc : ∀ kv ∈ cfg.exceptions, kv.2.flatten = kv.1) :
    ∀ (N : Nat) (rl : List (List Char)), rl.length ≤ N → (∀ r ∈ rl, r ≠ []) →
      SpecTok.detokL (SpecTok.goRuns cfg rl) = rl.flatten := by
  intro N
  induction N with
  | zero =>
    intro rl hlen _
    have hnil : rl = [] := List.eq_nil_of_length_eq_zero (Nat.le_zero.mp hlen)
    rw [hnil]
    rfl
  | succ N ih =>
    intro rl hlen hne
    cases rl with
    | nil => rfl
    | cons r rest =>
      have hlenr : rest.length ≤ N := by
        simp only [List.length_cons] at hlen
        omega
      by_cases hw : r.all SpecTok.isWsChar = true
      · have hred : SpecTok.goRuns cfg (r :: rest) = (r, false) :: SpecTok.goRuns cfg rest := by
          rw [SpecTok.goRuns.eq_def]
          simp [hw]
        have hd : SpecTok.detokL ((r, false) :: SpecTok.goRuns cfg rest) =
            (r ++ []) ++ SpecTok.detokL (SpecTok.goRuns cfg rest) := rfl
        rw [hred, hd, ih rest hlenr (fun x hx => hne x (List.mem_cons_of_mem _ hx))]
        simp
      · cases rest with
        | nil =>
          have hred : SpecTok.goRuns cfg [r] =
              (SpecTok.tokenizeChunk cfg r).map (fun t => (t, false)) := by
            rw [SpecTok.goRuns.eq_def]
            simp [hw]
          rw [hred, detokL_mapFalse, tokenizeChunk_flatten cfg r hexc]
          simp
        | cons w rest2 =>
          have hlenr2 : rest2.length ≤ N := by
            simp only [List.length_cons] at hlen
            omega
          by_cases hsp : w = [' ']
          · have hred : SpecTok.goRuns cfg (r :: w :: rest2) =
                SpecTok.setLast ((SpecTok.tokenizeChunk cfg r).map (fun t => (t, false))) ++
                  SpecTok.goRuns cfg rest2 := by
              rw [SpecTok.goRuns.eq_def]
              simp [hw, hsp]
            have hts : (SpecTok.tokenizeChunk cfg r).flatten = r :=
              tokenizeChunk_flatten cfg r hexc
            have htsne : SpecTok.tokenizeChunk cfg r ≠ [] := by
              intro h0
              rw [h0] at hts
              exact hne r (List.mem_cons_self _ _) hts.symm
            rw [hred, detokL_append, detokL_setLast _ htsne, hts,
              ih rest2 hlenr2 (fun x hx =>
                hne x (List.mem_cons_of_mem _ (List.mem_cons_of_mem _ hx)))]
            rw [hsp]
            simp
          · have hred : SpecTok.goRuns cfg (r :: w :: rest2) =
                (SpecTok.tokenizeChunk cfg r).map (fun t => (t, false)) ++
                  SpecTok.goRuns cfg (w :: rest2) := by
              rw [SpecTok.goRuns.eq_def]
              simp [hw, hsp]
            rw [hred, detokL_append, detokL_mapFalse, tokenizeChunk_flatten cfg r hexc,
              ih (w :: rest2) hlenr (fun x hx => hne x (List.mem_cons_of_mem _ hx))]
            simp

/-- C3 (modelled from the spec, §4.2 and §7): for every input string,
concatenating the emitted token surfaces, each followed by one space
exactly when its trailing-space flag is set, reconstructs the input
byte-for-byte, provided every exception entry is self-consistent (its
sub-token surfaces concatenate to its key) — the invariant the loader
enforces on exception tables at configuration time. -/
theorem tokenizer_round_trip (cfg : SpecTok.Config) (text : String)
    (hexc : ∀ kv ∈ cfg.exceptions, kv.2.flatten = kv.1) :
    SpecTok.detok (SpecTok.tokenize cfg text) = text := by
  unfold SpecTok.detok SpecTok.tokenize
  rw [List.map_map]
  have hid : ((fun tb : String × Bool => (tb.1.data, tb.2)) ∘
      (fun tb : List Char × Bool => (String.mk tb.1, tb.2))) = id := by
    funext tb
    rfl
  rw [hid, List.map_id]
  have hfl : (SpecTok.runs text.data).flatten = text.data := by
    have := runsAux_flatten text.data []
    simpa [SpecTok.runs] using this
  rw [detokL_goRuns cfg hexc (SpecTok.runs text.data).length (SpecTok.runs text.data)
    (Nat.le_refl _) (fun r hr => runsAux_ne_nil text.data [] r hr), hfl]

/-- Witness for C3: a concrete configuration with one prefix, two
suffixes, one infix and the exception splitting the chunk into two
sub-tokens, applied to a sample sentence. -/
theorem tokenizer_round_trip_witness :
    (∀ kv ∈ (SpecTok.Config.mk [['(']] [[')'], ['.']] [['-']]
        [(['d', 'o', 'n', 't'], [['d', 'o'], ['n', 't']])]).exceptions,
      kv.2.flatten = kv.1) ∧
    SpecTok.detok (SpecTok.tokenize (SpecTok.Config.mk [['(']] [[')'], ['.']] [['-']]
        [(['d', 'o', 'n', 't'], [['d', 'o'], ['n', 't']])]) "(dont stop-go now).")
      = "(dont stop-go now)." :=
  ⟨by decide, tokenizer_round_trip _ "(dont stop-go now)." (by decide)⟩
